import Mathlib

/-!
Range transfer engine of `app/document_range_ops.cpp`

A shallow embedding of `drop_range_op`, `move_range`, `copy_range` and
`reverse_frames`.

* Layer indices (`LayerIndex`) and frame numbers (`FrameNumber`) are `Int`:
  the source computes with signed `int`, whose overflow is undefined, so the
  embedding uses exact integer arithmetic.
* The document is changed only through `DocumentApi` primitives and the
  `UndoTransaction`; the embedding records them, in order, as a list of
  `Call`s.  A layer handed to a primitive (`layers[i]`) is recorded by its
  index `i` in the list filled by `getLayersList`, whether or not the list has
  such a position (the source does not test it).
* A `for` loop whose exit test is `!=` need not terminate; such loops take
  fuel, and `drop_range_op` gives them the distance between the first and the
  final value of the loop variable, which no terminating run exceeds
  (`forNe_fuel_irrelevant`).
* The primitives of `DocumentApi` are not among the sources.  Where a property
  speaks of what the calls do to the document, `moveFrame` and `copyFrame` are
  interpreted on the sequence of frames as a list (`moveFrame`, `copyFrame`,
  `runFrames`), and `swapCel` and `moveFrame` on the grid of cels (`Grid`,
  `runGrid`).
-/

namespace app

/-- The selector `enum Op { Move, Copy }`. -/
inductive Op where
  | Move
  | Copy
deriving DecidableEq

/-- The placement `DocumentRangePlace`. -/
inductive DocumentRangePlace where
  | kDocumentRangeBefore
  | kDocumentRangeAfter
deriving DecidableEq

/-- The kinds `DocumentRange::kCels`, `kFrames`, `kLayers` switched on by the source
(the enumeration is called `Type` there). -/
inductive RangeType where
  | kCels
  | kFrames
  | kLayers
deriving DecidableEq

/-- Modelled from the spec: the class `DocumentRange` (declared in
`app/document_range.h`, not among the sources).  A value with a kind and inclusive
begin/end bounds on the layer axis and on the frame axis. -/
structure DocumentRange where
  type : RangeType
  layerBegin : Int
  layerEnd : Int
  frameBegin : Int
  frameEnd : Int
deriving DecidableEq

namespace DocumentRange

/-- Modelled from the spec: `layers()` is `layerEnd-layerBegin+1`. -/
def layers (r : DocumentRange) : Int :=
  r.layerEnd - r.layerBegin + 1

/-- Modelled from the spec: `frames()` is analogous to `layers()`. -/
def frames (r : DocumentRange) : Int :=
  r.frameEnd - r.frameBegin + 1

/-- Modelled from the spec: `operator==`; two ranges of the same kind are equal iff
both axis pairs match. -/
def equals (a b : DocumentRange) : Bool :=
  decide (a.type = b.type ∧
    a.layerBegin = b.layerBegin ∧ a.layerEnd = b.layerEnd ∧
    a.frameBegin = b.frameBegin ∧ a.frameEnd = b.frameEnd)

/-- Modelled from the spec: `displace(layerDelta, frameDelta)` translates begin/end
on both axes by the given deltas. -/
def displace (r : DocumentRange) (layerDelta frameDelta : Int) : DocumentRange :=
  ⟨r.type, r.layerBegin + layerDelta, r.layerEnd + layerDelta,
    r.frameBegin + frameDelta, r.frameEnd + frameDelta⟩

/-- Modelled from the spec: `startRange(layer, frame, type)`, the setter that starts
a computed range: it fixes the kind and puts both ends of each axis at the given
position. -/
def startRange (_r : DocumentRange) (layer frame : Int) (type : RangeType) : DocumentRange :=
  ⟨type, layer, layer, frame, frame⟩

/-- Modelled from the spec: `endRange(layer, frame)`, the setter that fixes the end
bound of each axis. -/
def endRange (r : DocumentRange) (layer frame : Int) : DocumentRange :=
  ⟨r.type, r.layerBegin, layer, r.frameBegin, frame⟩

end DocumentRange

/-- Values fixed by declarations that are not among the sources
(`app/document_range.h`, `doc/layer_index.h`); the operations take them as a
parameter.  `NoLayer` is `LayerIndex::NoLayer`; `fresh` is the value built by the
declaration `DocumentRange resultRange;`. -/
structure RangeDecls where
  NoLayer : Int
  fresh : DocumentRange

/-- Modelled from the spec: a layer of the stack, with its `isBackground` flag
(`doc/layer.h` is not among the sources). -/
structure Layer where
  isBackground : Bool
deriving DecidableEq

/-- Modelled from the spec: the sprite as an ordered list of layers (position 0
first) over a uniform number of frames (`doc/sprite.h` is not among the sources).
`layers` is what `getLayersList` fills in. -/
structure Sprite where
  layers : List Layer
  totalFrames : Int
deriving DecidableEq

/-- Modelled from the spec: `Sprite::indexToLayer`, the layer at a 0-based position
of the stack, `none` (a null pointer, which the source tests for) when there is
none. -/
def Sprite.indexToLayer (sprite : Sprite) (i : Int) : Option Layer :=
  if i < 0 then none else sprite.layers[i.toNat]?

/-- The document; `doc->sprite()` is the field. -/
structure Document where
  sprite : Sprite
deriving DecidableEq

/-- One call made on the transaction (`UndoTransaction` constructor, `commit`) or on
the `DocumentApi`.  Layers are given by index, frames by number. -/
inductive Call where
  | begin (label : String)
  | commit
  | moveCel (srcLayer srcFrame dstLayer dstFrame : Int)
  | copyCel (srcLayer srcFrame dstLayer dstFrame : Int)
  | swapCel (layer frame frameRev : Int)
  | moveFrame (srcFrame dstFrame : Int)
  | copyFrame (srcFrame dstFrame : Int)
  | restackLayerBefore (layer beforeThis : Int)
  | restackLayerAfter (layer afterThis : Int)
  | duplicateLayerBefore (layer beforeThis : Int)
  | duplicateLayerAfter (layer afterThis : Int)
deriving DecidableEq

/-- How a call of `drop_range_op` ends: it returns a range, throws
`std::runtime_error`, dereferences a null `Layer*` (undefined in the source), or
never leaves a loop. -/
inductive Result where
  | returned (range : DocumentRange)
  | runtime_error (what : String)
  | nullDereference
  | nonTermination
deriving DecidableEq

/-- What a call does: the calls it made, in order, and how it ended.  For a run that
does not terminate, `trace` holds the calls made before the loop that never exits. -/
structure Outcome where
  trace : List Call
  result : Result
deriving DecidableEq

/-- The integers `lo, lo+1, ..., hi` in increasing order: the values taken by `i` in
`for (i = lo; i <= hi; ++i)`; reversed, those of `for (i = hi; i >= lo; --i)`. -/
def indexRange (lo hi : Int) : List Int :=
  (List.range (hi + 1 - lo).toNat).map (fun (k : Nat) => lo + (k : Int))

/-- The loop `for (i = ...; i <= from.layerEnd(); ++i) if
(sprite->indexToLayer(i)->isBackground()) throw ...` over the listed indices: `none`
when it runs to its end. -/
def backgroundScan (sprite : Sprite) : List Int → Option Result
  | [] => none
  | i :: rest =>
    match sprite.indexToLayer i with
    | none => some Result.nullDereference
    | some layer =>
      if layer.isBackground then
        some (Result.runtime_error "The background layer cannot be moved")
      else backgroundScan sprite rest

/-- The first `switch (from.type())` of `drop_range_op` (no-op and invalid cases):
`some r` when the function is left there, by `return from` or by a `throw`, `none`
when control reaches the transaction. -/
def checkRange (sprite : Sprite) (op : Op) (fromR : DocumentRange)
    (place : DocumentRangePlace) (toR : DocumentRange) : Option Result :=
  match fromR.type with
  | RangeType.kCels =>
    if fromR.equals toR then some (Result.returned fromR) else none
  | RangeType.kFrames =>
    if op = Op.Move then
      if (toR.frameBegin ≥ fromR.frameBegin ∧ toR.frameEnd ≤ fromR.frameEnd) ∨
          (place = DocumentRangePlace.kDocumentRangeBefore ∧
            toR.frameBegin = fromR.frameEnd + 1) ∨
          (place = DocumentRangePlace.kDocumentRangeAfter ∧
            toR.frameEnd = fromR.frameBegin - 1) then
        some (Result.returned fromR)
      else none
    else none
  | RangeType.kLayers =>
    if op = Op.Move then
      if (toR.layerBegin ≥ fromR.layerBegin ∧ toR.layerEnd ≤ fromR.layerEnd) ∨
          (place = DocumentRangePlace.kDocumentRangeBefore ∧
            toR.layerBegin = fromR.layerEnd + 1) ∨
          (place = DocumentRangePlace.kDocumentRangeAfter ∧
            toR.layerEnd = fromR.layerBegin - 1) then
        some (Result.returned fromR)
      else
        match backgroundScan sprite (indexRange fromR.layerBegin fromR.layerEnd) with
        | some r => some r
        | none =>
          if place = DocumentRangePlace.kDocumentRangeBefore then
            match sprite.indexToLayer toR.layerBegin with
            | some background =>
              if background.isBackground then
                some (Result.runtime_error
                  "You cannot move something below the background layer")
              else none
            | none => none
          else none
    else none

/-- The loop shape `for (src = .., dst = ..; src != srcEnd; ) { body; src += srcStep;
dst += dstStep; }` used three times by the source.  `body src dst` gives the calls of
one pass (`none` if the pass itself never ends); the result is `none` when the fuel
runs out before `src` meets `srcEnd`. -/
def forNe (body : Int → Int → Option (List Call)) (srcEnd srcStep dstStep : Int) :
    Nat → Int → Int → Option (List Call)
  | 0, src, _ => if src = srcEnd then some [] else none
  | fuel + 1, src, dst =>
    if src = srcEnd then some []
    else
      match body src dst with
      | none => none
      | some calls =>
        match forNe body srcEnd srcStep dstStep fuel (src + srcStep) (dst + dstStep) with
        | none => none
        | some rest => some (calls ++ rest)

/-- The five loop variables set up before a transfer loop. -/
structure Plan where
  srcBegin : Int
  srcStep : Int
  srcEnd : Int
  dstBegin : Int
  dstStep : Int
deriving DecidableEq

/-- Runs the loop described by a plan, with fuel the distance from `srcBegin` to
`srcEnd`. -/
def Plan.run (p : Plan) (body : Int → Int → Option (List Call)) : Option (List Call) :=
  forNe body p.srcEnd p.srcStep p.dstStep (p.srcEnd - p.srcBegin).natAbs p.srcBegin p.dstBegin

/-- Cells transfer, layer axis: `srcLayerBegin`, `srcLayerStep`, `srcLayerEnd`,
`dstLayerBegin`, `dstLayerStep`. -/
def celsLayerPlan (fromR toR : DocumentRange) : Plan :=
  if toR.layerBegin ≤ fromR.layerBegin then
    ⟨fromR.layerBegin, 1, fromR.layerEnd + 1, toR.layerBegin, 1⟩
  else
    ⟨fromR.layerEnd, -1, fromR.layerBegin - 1, toR.layerEnd, -1⟩

/-- Cells transfer, frame axis: `srcFrameBegin`, `srcFrameStep`, `srcFrameEnd`,
`dstFrameBegin`, `dstFrameStep`. -/
def celsFramePlan (fromR toR : DocumentRange) : Plan :=
  if toR.frameBegin ≤ fromR.frameBegin then
    ⟨fromR.frameBegin, 1, fromR.frameEnd + 1, toR.frameBegin, 1⟩
  else
    ⟨fromR.frameEnd, -1, fromR.frameBegin - 1, toR.frameEnd, -1⟩

/-- The primitive of the Cells loop body: `moveCel` or `copyCel`. -/
def celCall (op : Op) (srcLayer srcFrame dstLayer dstFrame : Int) : Call :=
  match op with
  | Op.Move => Call.moveCel srcLayer srcFrame dstLayer dstFrame
  | Op.Copy => Call.copyCel srcLayer srcFrame dstLayer dstFrame

/-- The nested loop of the `kCels` case: layers outside, frames inside. -/
def celsCalls (op : Op) (fromR toR : DocumentRange) : Option (List Call) :=
  (celsLayerPlan fromR toR).run fun srcLayerIdx dstLayerIdx =>
    (celsFramePlan fromR toR).run fun srcFrame dstFrame =>
      some [celCall op srcLayerIdx srcFrame dstLayerIdx dstFrame]

/-- Frames transfer: the loop variables chosen by `switch (op)` and `place`. -/
def framesPlan (op : Op) (fromR : DocumentRange) (place : DocumentRangePlace)
    (toR : DocumentRange) : Plan :=
  match op, place with
  | Op.Move, DocumentRangePlace.kDocumentRangeBefore =>
    if toR.frameBegin ≤ fromR.frameBegin then
      ⟨fromR.frameBegin, 1, fromR.frameEnd + 1, toR.frameBegin, 1⟩
    else
      ⟨fromR.frameEnd, -1, fromR.frameBegin - 1, toR.frameBegin, -1⟩
  | Op.Move, DocumentRangePlace.kDocumentRangeAfter =>
    if toR.frameEnd ≤ fromR.frameBegin then
      ⟨fromR.frameBegin, 1, fromR.frameEnd + 1, toR.frameEnd, 1⟩
    else
      ⟨fromR.frameEnd, -1, fromR.frameBegin - 1, toR.frameEnd + 1, -1⟩
  | Op.Copy, DocumentRangePlace.kDocumentRangeBefore =>
    if toR.frameBegin ≤ fromR.frameBegin then
      ⟨fromR.frameBegin, 2, fromR.frameBegin + 2 * fromR.frames, toR.frameBegin, 1⟩
    else
      ⟨fromR.frameEnd, -1, fromR.frameBegin - 1, toR.frameBegin, 0⟩
  | Op.Copy, DocumentRangePlace.kDocumentRangeAfter =>
    if toR.frameEnd ≤ fromR.frameBegin then
      ⟨fromR.frameBegin, 2, fromR.frameBegin + 2 * fromR.frames, toR.frameEnd + 1, 1⟩
    else
      ⟨fromR.frameEnd, -1, fromR.frameBegin - 1, toR.frameEnd + 1, 0⟩

/-- The primitive of the Frames loop body: `moveFrame` or `copyFrame`. -/
def frameCall (op : Op) (srcFrame dstFrame : Int) : Call :=
  match op with
  | Op.Move => Call.moveFrame srcFrame dstFrame
  | Op.Copy => Call.copyFrame srcFrame dstFrame

/-- The loop of the `kFrames` case. -/
def framesCalls (op : Op) (fromR : DocumentRange) (place : DocumentRangePlace)
    (toR : DocumentRange) : Option (List Call) :=
  (framesPlan op fromR place toR).run fun srcFrame dstFrame =>
    some [frameCall op srcFrame dstFrame]

/-- The result range of the `kFrames` case. -/
def framesResult (k : RangeDecls) (op : Op) (fromR : DocumentRange)
    (place : DocumentRangePlace) (toR : DocumentRange) : DocumentRange :=
  let resultRange :=
    match place with
    | DocumentRangePlace.kDocumentRangeBefore =>
      (k.fresh.startRange k.NoLayer toR.frameBegin fromR.type).endRange
        k.NoLayer (toR.frameBegin + fromR.frames - 1)
    | DocumentRangePlace.kDocumentRangeAfter =>
      (k.fresh.startRange k.NoLayer (toR.frameEnd + 1) fromR.type).endRange
        k.NoLayer (toR.frameEnd + 1 + fromR.frames - 1)
  if op = Op.Move ∧ fromR.frameBegin < toR.frameBegin then
    resultRange.displace 0 (-fromR.frames)
  else resultRange

/-- The loops of the `kLayers` case, one primitive per source layer. -/
def layersCalls (op : Op) (fromR : DocumentRange) (place : DocumentRangePlace)
    (toR : DocumentRange) : List Call :=
  match op, place with
  | Op.Move, DocumentRangePlace.kDocumentRangeBefore =>
    (indexRange fromR.layerBegin fromR.layerEnd).map
      fun i => Call.restackLayerBefore i toR.layerBegin
  | Op.Move, DocumentRangePlace.kDocumentRangeAfter =>
    (indexRange fromR.layerBegin fromR.layerEnd).reverse.map
      fun i => Call.restackLayerAfter i toR.layerEnd
  | Op.Copy, DocumentRangePlace.kDocumentRangeBefore =>
    (indexRange fromR.layerBegin fromR.layerEnd).map
      fun i => Call.duplicateLayerBefore i toR.layerBegin
  | Op.Copy, DocumentRangePlace.kDocumentRangeAfter =>
    (indexRange fromR.layerBegin fromR.layerEnd).reverse.map
      fun i => Call.duplicateLayerAfter i toR.layerEnd

/-- The result range of the `kLayers` case. -/
def layersResult (k : RangeDecls) (op : Op) (fromR : DocumentRange)
    (place : DocumentRangePlace) (toR : DocumentRange) : DocumentRange :=
  let resultRange :=
    match place with
    | DocumentRangePlace.kDocumentRangeBefore =>
      (k.fresh.startRange toR.layerBegin (-1) fromR.type).endRange
        (toR.layerBegin + fromR.layers - 1) (-1)
    | DocumentRangePlace.kDocumentRangeAfter =>
      (k.fresh.startRange (toR.layerEnd + 1) (-1) fromR.type).endRange
        (toR.layerEnd + 1 + fromR.layers - 1) (-1)
  if op = Op.Move ∧ fromR.layerBegin < toR.layerBegin then
    resultRange.displace (-fromR.layers) 0
  else resultRange

/-- The label given to the transaction. -/
def undoLabel (op : Op) : String :=
  match op with
  | Op.Move => "Move Range"
  | Op.Copy => "Copy Range"

/-- The function `drop_range_op`: the checks, then the transaction around the
second `switch (from.type())`. -/
def drop_range_op (k : RangeDecls) (doc : Document) (op : Op) (fromR : DocumentRange)
    (place : DocumentRangePlace) (toR : DocumentRange) : Outcome :=
  let sprite := doc.sprite
  match checkRange sprite op fromR place toR with
  | some r => ⟨[], r⟩
  | none =>
    match fromR.type with
    | RangeType.kCels =>
      match celsCalls op fromR toR with
      | none => ⟨[Call.begin (undoLabel op)], Result.nonTermination⟩
      | some calls =>
        ⟨Call.begin (undoLabel op) :: calls ++ [Call.commit], Result.returned toR⟩
    | RangeType.kFrames =>
      match framesCalls op fromR place toR with
      | none => ⟨[Call.begin (undoLabel op)], Result.nonTermination⟩
      | some calls =>
        ⟨Call.begin (undoLabel op) :: calls ++ [Call.commit],
          Result.returned (framesResult k op fromR place toR)⟩
    | RangeType.kLayers =>
      if sprite.layers.isEmpty then
        ⟨[Call.begin (undoLabel op), Call.commit], Result.returned k.fresh⟩
      else
        ⟨Call.begin (undoLabel op) :: layersCalls op fromR place toR ++ [Call.commit],
          Result.returned (layersResult k op fromR place toR)⟩

/-- The function `move_range`. -/
def move_range (k : RangeDecls) (doc : Document) (fromR toR : DocumentRange)
    (place : DocumentRangePlace) : Outcome :=
  drop_range_op k doc Op.Move fromR place toR

/-- The function `copy_range`. -/
def copy_range (k : RangeDecls) (doc : Document) (fromR toR : DocumentRange)
    (place : DocumentRangePlace) : Outcome :=
  drop_range_op k doc Op.Copy fromR place toR

/-! ## Sample inputs -/

/-- The constants as upstream declares them: `NoLayer` is `-1` and a fresh range has
empty spans. -/
def sampleDecls : RangeDecls :=
  ⟨-1, ⟨RangeType.kCels, 0, -1, 0, -1⟩⟩

/-- A document with a background layer at position 0, two more layers, five frames. -/
def sampleDoc : Document :=
  ⟨⟨[⟨true⟩, ⟨false⟩, ⟨false⟩], 5⟩⟩

/-- A document whose layer list is empty, with five frames. -/
def emptyDoc : Document :=
  ⟨⟨[], 5⟩⟩

/-- A range of kind Cells. -/
def Cels (layerBegin layerEnd frameBegin frameEnd : Int) : DocumentRange :=
  ⟨RangeType.kCels, layerBegin, layerEnd, frameBegin, frameEnd⟩

/-- A range of kind Frames over the given frames of layers 0..2. -/
def Frames (frameBegin frameEnd : Int) : DocumentRange :=
  ⟨RangeType.kFrames, 0, 2, frameBegin, frameEnd⟩

/-- A range of kind Layers over the given layers and frames 0..4. -/
def Layers (layerBegin layerEnd : Int) : DocumentRange :=
  ⟨RangeType.kLayers, layerBegin, layerEnd, 0, 4⟩

/-- The calls of `n` passes of a loop whose pass at `(src, dst)` makes the calls
`g src dst`. -/
def unroll (g : Int → Int → List Call) (srcStep dstStep : Int) : Nat → Int → Int → List Call
  | 0, _, _ => []
  | n + 1, src, dst => g src dst ++ unroll g srcStep dstStep n (src + srcStep) (dst + dstStep)


/-- The cell `(layer, frame)` read by a call: the source of a `moveCel` or `copyCel`. -/
def Call.srcCel : Call → Option (Int × Int)
  | Call.moveCel srcLayer srcFrame _ _ => some (srcLayer, srcFrame)
  | Call.copyCel srcLayer srcFrame _ _ => some (srcLayer, srcFrame)
  | _ => none

/-- The cell `(layer, frame)` written by a call: the destination of a `moveCel` or
`copyCel`. -/
def Call.dstCel : Call → Option (Int × Int)
  | Call.moveCel _ _ dstLayer dstFrame => some (dstLayer, dstFrame)
  | Call.copyCel _ _ dstLayer dstFrame => some (dstLayer, dstFrame)
  | _ => none

/-- The positions `lo..hi` in the order a loop walks them: upwards when `forward`,
downwards otherwise. -/
def visitOrder (forward : Bool) (lo hi : Int) : List Int :=
  if forward then indexRange lo hi else (indexRange lo hi).reverse


/-! ## The frame sequence as a list -/

/-- Modelled from the spec: `DocumentApi::moveFrame(sprite, srcFrame, dstFrame)` acting
on the sequence of frames (`app/document_api.h` is not among the sources).  The frame
at index `srcFrame` is removed and reinserted immediately before the frame that was at
index `dstFrame`; `dstFrame` equal to the number of frames appends, and
`srcFrame = dstFrame` does nothing.  A call with an index outside the sequence leaves
it as it is. -/
def moveFrame {α : Type} (frames : List α) (srcFrame dstFrame : Int) : List α :=
  if 0 ≤ srcFrame ∧ srcFrame < frames.length ∧ 0 ≤ dstFrame ∧ dstFrame ≤ frames.length ∧
      srcFrame ≠ dstFrame then
    match frames[srcFrame.toNat]? with
    | none => frames
    | some frame =>
      let rest := frames.take srcFrame.toNat ++ frames.drop (srcFrame.toNat + 1)
      let pos := if srcFrame < dstFrame then dstFrame.toNat - 1 else dstFrame.toNat
      rest.take pos ++ frame :: rest.drop pos
  else frames

/-- Modelled from the spec: `DocumentApi::copyFrame(sprite, srcFrame, dstFrame)` acting
on the sequence of frames (`app/document_api.h` is not among the sources).  A duplicate
of the frame found at index `srcFrame` before the insertion is inserted at index
`dstFrame`; the frames at indices `>= dstFrame` shift up by one.  A call with an index
outside the sequence leaves it as it is. -/
def copyFrame {α : Type} (frames : List α) (srcFrame dstFrame : Int) : List α :=
  if 0 ≤ srcFrame ∧ 0 ≤ dstFrame ∧ dstFrame ≤ frames.length then
    match frames[srcFrame.toNat]? with
    | none => frames
    | some frame => frames.take dstFrame.toNat ++ frame :: frames.drop dstFrame.toNat
  else frames

/-- The effect of one call on the sequence of frames: `moveFrame` and `copyFrame`
rearrange it, every other call leaves the sequence as it is. -/
def Call.onFrames {α : Type} (c : Call) (frames : List α) : List α :=
  match c with
  | Call.moveFrame srcFrame dstFrame => app.moveFrame frames srcFrame dstFrame
  | Call.copyFrame srcFrame dstFrame => app.copyFrame frames srcFrame dstFrame
  | _ => frames

/-- The sequence of frames after the calls of a trace, in order. -/
def runFrames {α : Type} (calls : List Call) (frames : List α) : List α :=
  calls.foldl (fun fs c => c.onFrames fs) frames

/-- The frames at indices `lo..hi` (inclusive) of a sequence. -/
def slice {α : Type} (frames : List α) (lo hi : Int) : List α :=
  (frames.drop lo.toNat).take (hi + 1 - lo).toNat

/-- The insertion point of a Frames transfer: `to.frameBegin` for placement Before,
`to.frameEnd+1` for placement After. -/
def insertionPoint (place : DocumentRangePlace) (toR : DocumentRange) : Int :=
  match place with
  | DocumentRangePlace.kDocumentRangeBefore => toR.frameBegin
  | DocumentRangePlace.kDocumentRangeAfter => toR.frameEnd + 1


/-! ## Reversal -/

/-- The first `switch` of `reverse_frames`: the frame span `(frameBegin, frameEnd)` it
works on, the span of the range for the kinds Cells and Frames and all the frames
`0 .. totalFrames-1` of the sprite for the kind Layers. -/
def reverseSpan (sprite : Sprite) (range : DocumentRange) : Int × Int :=
  match range.type with
  | RangeType.kCels => (range.frameBegin, range.frameEnd)
  | RangeType.kFrames => (range.frameBegin, range.frameEnd)
  | RangeType.kLayers => (0, sprite.totalFrames - 1)

/-- The branch `if (moveFrames)` of `reverse_frames`: `for (frameRev = frameEnd.next();
frameRev > frameBegin; frameRev = frameRev.previous()) api.moveFrame(sprite, frameBegin,
frameRev);`. -/
def reverseMoves (frameBegin frameEnd : Int) : List Call :=
  (indexRange (frameBegin + 1) (frameEnd + 1)).reverse.map
    fun frameRev => Call.moveFrame frameBegin frameRev

/-- The inner loop of the swap branch of `reverse_frames`, for one layer: `frame` runs
upwards from `frameBegin`, `frameRev` downwards from `frameEnd`, until `frame` is
`FrameNumber((frameBegin+frameEnd)/2).next()`; the division is that of C++ `int`. -/
def swapLoop (frameBegin frameEnd layerIdx : Int) : Option (List Call) :=
  (Plan.mk frameBegin 1 (Int.tdiv (frameBegin + frameEnd) 2 + 1) frameEnd (-1)).run
    fun frame frameRev => some [Call.swapCel layerIdx frame frameRev]

/-- The swap branch of `reverse_frames`: `for (layerIdx = layerBegin; layerIdx !=
layerEnd; ++layerIdx)` around the inner loop.  The loop has one variable; the second
one of the loop shape stays 0. -/
def reverseSwaps (frameBegin frameEnd layerBegin layerEnd : Int) : Option (List Call) :=
  (Plan.mk layerBegin 1 layerEnd 0 0).run
    fun layerIdx _ => swapLoop frameBegin frameEnd layerIdx

/-- The function `reverse_frames`: the calls it makes, the transaction included, or
`none` when a loop with exit test `!=` never ends. -/
def reverse_frames (doc : Document) (range : DocumentRange) : Option (List Call) :=
  let sprite := doc.sprite
  let frameBegin := (reverseSpan sprite range).1
  let frameEnd := (reverseSpan sprite range).2
  let calls :=
    if range.type = RangeType.kFrames then
      some (reverseMoves frameBegin frameEnd)
    else
      reverseSwaps frameBegin frameEnd range.layerBegin (range.layerEnd + 1)
  match calls with
  | none => none
  | some calls => some (Call.begin "Reverse Frames" :: calls ++ [Call.commit])

/-- Modelled from the spec: the grid of cels, indexed by layer and by frame; the value
at `(layer, frame)` is the content of that cel (an empty cel is a value like any
other). -/
abbrev Grid (α : Type) : Type := Int → Int → α

/-- Modelled from the spec: `DocumentApi::swapCel(layer, frame1, frame2)`
(`app/document_api.h` is not among the sources): the cels at the two frames of the layer
are exchanged. -/
def Grid.swapCel {α : Type} (g : Grid α) (layer frame frameRev : Int) : Grid α :=
  fun l f =>
    if l = layer then
      if f = frame then g l frameRev else if f = frameRev then g l frame else g l f
    else g l f

/-- The frames `0 .. totalFrames-1` of a grid as a sequence; a frame is the column of
its cels over all layers. -/
def Grid.columns {α : Type} (g : Grid α) (totalFrames : Nat) : List (Int → α) :=
  (List.range totalFrames).map fun (f : Nat) => fun l => g l f

/-- The grid whose frames `0, 1, ...` are the given columns, and which is `g` at every
other frame. -/
def Grid.withColumns {α : Type} (g : Grid α) (columns : List (Int → α)) : Grid α :=
  fun l f =>
    if f < 0 then g l f
    else
      match columns[f.toNat]? with
      | some column => column l
      | none => g l f

/-- Modelled from the spec: `DocumentApi::moveFrame` acting on the grid: the sequence of
the frames of the sprite is rearranged as `moveFrame` rearranges a list. -/
def Grid.moveFrame {α : Type} (g : Grid α) (totalFrames : Nat) (srcFrame dstFrame : Int) :
    Grid α :=
  g.withColumns (app.moveFrame (g.columns totalFrames) srcFrame dstFrame)

/-- The effect of one call on the grid of a sprite with `totalFrames` frames: `swapCel`
and `moveFrame` as modelled, every other call of `reverse_frames` leaves the cels as
they are. -/
def Call.onGrid {α : Type} (c : Call) (totalFrames : Nat) (g : Grid α) : Grid α :=
  match c with
  | Call.swapCel layer frame frameRev => g.swapCel layer frame frameRev
  | Call.moveFrame srcFrame dstFrame => g.moveFrame totalFrames srcFrame dstFrame
  | _ => g

/-- The grid after the calls of a trace, in order. -/
def runGrid {α : Type} (calls : List Call) (totalFrames : Nat) (g : Grid α) : Grid α :=
  calls.foldl (fun grid c => c.onGrid totalFrames grid) g

/-- A range lies inside the grid of a sprite: its meaningful spans are not empty and
hold existing layers and frames; for the kind Layers, whose frame span is the whole
sprite, the sprite has a frame. -/
def DocumentRange.insideGrid (range : DocumentRange) (sprite : Sprite) : Prop :=
  match range.type with
  | RangeType.kCels =>
    (0 ≤ range.layerBegin ∧ range.layerBegin ≤ range.layerEnd ∧
        range.layerEnd < sprite.layers.length) ∧
      (0 ≤ range.frameBegin ∧ range.frameBegin ≤ range.frameEnd ∧
        range.frameEnd < sprite.totalFrames)
  | RangeType.kFrames =>
    0 ≤ range.frameBegin ∧ range.frameBegin ≤ range.frameEnd ∧
      range.frameEnd < sprite.totalFrames
  | RangeType.kLayers =>
    (0 ≤ range.layerBegin ∧ range.layerBegin ≤ range.layerEnd ∧
        range.layerEnd < sprite.layers.length) ∧
      0 < sprite.totalFrames


instance DocumentRange.decidableInsideGrid (range : DocumentRange) (sprite : Sprite) :
    Decidable (range.insideGrid sprite) := by
  unfold DocumentRange.insideGrid
  cases range.type <;> exact inferInstance

/-! ## Loops -/

theorem forNe_eq_unroll (body : Int → Int → Option (List Call)) (g : Int → Int → List Call)
    (hbody : ∀ a b, body a b = some (g a b)) (srcStep dstStep : Int) (hstep : srcStep ≠ 0) :
    ∀ (n fuel : Nat) (src dst : Int), n ≤ fuel →
      forNe body (src + n * srcStep) srcStep dstStep fuel src dst =
        some (unroll g srcStep dstStep n src dst) := by
  intro n
  induction n with
  | zero =>
    intro fuel src dst _
    cases fuel <;> simp [forNe, unroll]
  | succ n ih =>
    intro fuel src dst hle
    obtain ⟨fuel, rfl⟩ : ∃ m, fuel = m + 1 := ⟨fuel - 1, by omega⟩
    have hne : ¬ src = src + ((n + 1 : Nat) : Int) * srcStep := by
      intro h
      have h0 : ((n + 1 : Nat) : Int) * srcStep = 0 := by linarith
      rcases mul_eq_zero.mp h0 with h1 | h1
      · have : ((n + 1 : Nat) : Int) ≠ 0 := by exact_mod_cast Nat.succ_ne_zero n
        exact this h1
      · exact hstep h1
    have hend : src + ((n + 1 : Nat) : Int) * srcStep = (src + srcStep) + (n : Int) * srcStep := by
      push_cast
      ring
    have hrec := ih fuel (src + srcStep) (dst + dstStep) (by omega)
    rw [forNe, if_neg hne, hbody, hend, hrec]
    simp [unroll]

theorem forNe_mono (body : Int → Int → Option (List Call)) (srcEnd srcStep dstStep : Int) :
    ∀ (fuel fuel2 : Nat) (src dst : Int) (calls : List Call), fuel ≤ fuel2 →
      forNe body srcEnd srcStep dstStep fuel src dst = some calls →
      forNe body srcEnd srcStep dstStep fuel2 src dst = some calls := by
  intro fuel
  induction fuel with
  | zero =>
    intro fuel2 src dst calls _ h
    by_cases hs : src = srcEnd
    · cases fuel2 <;> simpa [forNe, hs] using h
    · simp [forNe, hs] at h
  | succ fuel ih =>
    intro fuel2 src dst calls hle h
    obtain ⟨fuel2, rfl⟩ : ∃ m, fuel2 = m + 1 := ⟨fuel2 - 1, by omega⟩
    by_cases hs : src = srcEnd
    · simpa [forNe, hs] using h
    · rw [forNe, if_neg hs] at h ⊢
      cases hb : body src dst with
      | none => simp [hb] at h
      | some c =>
        simp only [hb] at h ⊢
        cases hr : forNe body srcEnd srcStep dstStep fuel (src + srcStep) (dst + dstStep) with
        | none => simp [hr] at h
        | some rest =>
          rw [ih fuel2 _ _ rest (by omega) hr]
          simpa [hr] using h

theorem forNe_passes (body : Int → Int → Option (List Call)) (srcEnd srcStep dstStep : Int) :
    ∀ (fuel : Nat) (src dst : Int) (calls : List Call),
      forNe body srcEnd srcStep dstStep fuel src dst = some calls →
      ∃ n : Nat, srcEnd = src + n * srcStep ∧ (n = 0 ∨ srcStep ≠ 0) ∧
        forNe body srcEnd srcStep dstStep n src dst = some calls := by
  intro fuel
  induction fuel with
  | zero =>
    intro src dst calls h
    by_cases hs : src = srcEnd
    · exact ⟨0, by simp [hs], Or.inl rfl, h⟩
    · simp [forNe, hs] at h
  | succ fuel ih =>
    intro src dst calls h
    by_cases hs : src = srcEnd
    · refine ⟨0, by simp [hs], Or.inl rfl, ?_⟩
      simpa [forNe, hs] using h
    · rw [forNe, if_neg hs] at h
      cases hb : body src dst with
      | none => simp [hb] at h
      | some c =>
        simp only [hb] at h
        cases hr : forNe body srcEnd srcStep dstStep fuel (src + srcStep) (dst + dstStep) with
        | none => simp [hr] at h
        | some rest =>
          obtain ⟨n, hn, _, hrun⟩ := ih _ _ rest hr
          have hend : srcEnd = src + ((n + 1 : Nat) : Int) * srcStep := by
            rw [hn]
            push_cast
            ring
          refine ⟨n + 1, hend, Or.inr ?_, ?_⟩
          · intro h0
            rw [h0] at hend
            exact hs (by simpa using hend.symm)
          · rw [forNe, if_neg hs, hb]
            simp only [hrun]
            simpa [hr] using h

/-- The fuel given by `Plan.run` is enough: a loop that ends with some fuel ends, with
the same calls, with the distance from `src` to `srcEnd` as fuel. -/
theorem forNe_fuel_irrelevant (body : Int → Int → Option (List Call))
    (srcEnd srcStep dstStep : Int) (fuel : Nat) (src dst : Int) (calls : List Call)
    (h : forNe body srcEnd srcStep dstStep fuel src dst = some calls) :
    forNe body srcEnd srcStep dstStep (srcEnd - src).natAbs src dst = some calls := by
  obtain ⟨n, hn, hstep, hrun⟩ := forNe_passes body srcEnd srcStep dstStep fuel src dst calls h
  refine forNe_mono body srcEnd srcStep dstStep n _ src dst calls ?_ hrun
  have h1 : srcEnd - src = n * srcStep := by rw [hn]; ring
  rw [h1, Int.natAbs_mul, Int.natAbs_ofNat]
  rcases hstep with h0 | h0
  · simp [h0]
  · have : 1 ≤ srcStep.natAbs := Int.natAbs_pos.mpr h0
    nlinarith

theorem Plan.run_eq_unroll (p : Plan) (body : Int → Int → Option (List Call))
    (g : Int → Int → List Call) (hbody : ∀ a b, body a b = some (g a b))
    (n : Nat) (hstep : p.srcStep ≠ 0) (hend : p.srcEnd = p.srcBegin + n * p.srcStep) :
    p.run body = some (unroll g p.srcStep p.dstStep n p.srcBegin p.dstBegin) := by
  unfold Plan.run
  have hfuel : n ≤ (p.srcEnd - p.srcBegin).natAbs := by
    have h1 : p.srcEnd - p.srcBegin = n * p.srcStep := by rw [hend]; ring
    rw [h1, Int.natAbs_mul, Int.natAbs_ofNat]
    have : 1 ≤ p.srcStep.natAbs := Int.natAbs_pos.mpr hstep
    nlinarith
  have := forNe_eq_unroll body g hbody p.srcStep p.dstStep hstep n _ p.srcBegin p.dstBegin hfuel
  rw [← hend] at this
  exact this

/-! ## Index lists and the background scan -/

theorem indexRange_nil (lo hi : Int) (h : hi < lo) : indexRange lo hi = [] := by
  unfold indexRange
  have : (hi + 1 - lo).toNat = 0 := by omega
  rw [this]
  rfl

theorem indexRange_cons (lo hi : Int) (h : lo ≤ hi) :
    indexRange lo hi = lo :: indexRange (lo + 1) hi := by
  unfold indexRange
  have : (hi + 1 - lo).toNat = (hi + 1 - (lo + 1)).toNat + 1 := by omega
  rw [this, List.range_succ_eq_map]
  simp only [List.map_cons, List.map_map]
  congr 1
  · simp
  · apply List.map_congr_left
    intro a _
    simp only [Function.comp_apply]
    push_cast
    ring

theorem mem_indexRange (lo hi j : Int) : j ∈ indexRange lo hi ↔ lo ≤ j ∧ j ≤ hi := by
  unfold indexRange
  simp only [List.mem_map, List.mem_range]
  constructor
  · rintro ⟨k, hk, rfl⟩
    omega
  · rintro ⟨h1, h2⟩
    exact ⟨(j - lo).toNat, by omega, by omega⟩

theorem Sprite.indexToLayer_eq_some (sprite : Sprite) (i : Int) (layer : Layer)
    (h : sprite.indexToLayer i = some layer) : 0 ≤ i ∧ i < sprite.layers.length := by
  unfold Sprite.indexToLayer at h
  split at h
  · cases h
  · have h2 := (List.getElem?_eq_some.mp h).1
    omega

theorem Sprite.indexToLayer_inside (sprite : Sprite) (j : Int) (h0 : 0 ≤ j)
    (h1 : j < sprite.layers.length) : ∃ layer, sprite.indexToLayer j = some layer := by
  unfold Sprite.indexToLayer
  rw [if_neg (by omega)]
  have hj : j.toNat < sprite.layers.length := by omega
  exact ⟨sprite.layers[j.toNat], List.getElem?_eq_getElem hj⟩

/-- Scanning a list of positions that all hold a layer ends normally or throws. -/
theorem backgroundScan_inside (sprite : Sprite) (l : List Int)
    (h : ∀ j ∈ l, ∃ layer, sprite.indexToLayer j = some layer) :
    backgroundScan sprite l = none ∨
      backgroundScan sprite l =
        some (Result.runtime_error "The background layer cannot be moved") := by
  induction l with
  | nil => exact Or.inl rfl
  | cons i rest ih =>
    obtain ⟨layer, hl⟩ := h i (List.mem_cons_self i rest)
    unfold backgroundScan
    rw [hl]
    by_cases hb : layer.isBackground = true
    · simp [hb]
    · simp only [hb]
      exact ih (fun j hj => h j (List.mem_cons_of_mem i hj))

/-- Scanning upwards from a non-negative position throws as soon as the span holds
the background layer. -/
theorem backgroundScan_hits (sprite : Sprite) (i : Int) (layer : Layer)
    (hi : sprite.indexToLayer i = some layer) (hbg : layer.isBackground = true) :
    ∀ (n : Nat) (lo hi2 : Int), 0 ≤ lo → lo ≤ i → i ≤ hi2 → (i - lo).toNat = n →
      backgroundScan sprite (indexRange lo hi2) =
        some (Result.runtime_error "The background layer cannot be moved") := by
  intro n
  induction n with
  | zero =>
    intro lo hi2 _ h1 h2 hn
    have : lo = i := by omega
    subst this
    rw [indexRange_cons lo hi2 h2]
    unfold backgroundScan
    rw [hi]
    simp [hbg]
  | succ n ih =>
    intro lo hi2 h0 h1 h2 hn
    have hlt : lo < i := by omega
    rw [indexRange_cons lo hi2 (by omega)]
    obtain ⟨l0, hl0⟩ := sprite.indexToLayer_inside lo h0
      (by have := (sprite.indexToLayer_eq_some i layer hi).2; omega)
    unfold backgroundScan
    rw [hl0]
    by_cases hb : l0.isBackground = true
    · simp [hb]
    · simp only [hb]
      exact ih (lo + 1) hi2 (by omega) (by omega) h2 (by omega)

/-! ## The checks, by kind -/

theorem checkRange_layers_move (sprite : Sprite) (fromR : DocumentRange)
    (place : DocumentRangePlace) (toR : DocumentRange)
    (hkind : fromR.type = RangeType.kLayers) :
    checkRange sprite Op.Move fromR place toR =
      if (toR.layerBegin ≥ fromR.layerBegin ∧ toR.layerEnd ≤ fromR.layerEnd) ∨
          (place = DocumentRangePlace.kDocumentRangeBefore ∧
            toR.layerBegin = fromR.layerEnd + 1) ∨
          (place = DocumentRangePlace.kDocumentRangeAfter ∧
            toR.layerEnd = fromR.layerBegin - 1) then
        some (Result.returned fromR)
      else
        match backgroundScan sprite (indexRange fromR.layerBegin fromR.layerEnd) with
        | some r => some r
        | none =>
          if place = DocumentRangePlace.kDocumentRangeBefore then
            match sprite.indexToLayer toR.layerBegin with
            | some background =>
              if background.isBackground then
                some (Result.runtime_error
                  "You cannot move something below the background layer")
              else none
            | none => none
          else none := by
  unfold checkRange
  rw [hkind]
  rfl

theorem checkRange_frames_move (sprite : Sprite) (fromR : DocumentRange)
    (place : DocumentRangePlace) (toR : DocumentRange)
    (hkind : fromR.type = RangeType.kFrames) :
    checkRange sprite Op.Move fromR place toR =
      if (toR.frameBegin ≥ fromR.frameBegin ∧ toR.frameEnd ≤ fromR.frameEnd) ∨
          (place = DocumentRangePlace.kDocumentRangeBefore ∧
            toR.frameBegin = fromR.frameEnd + 1) ∨
          (place = DocumentRangePlace.kDocumentRangeAfter ∧
            toR.frameEnd = fromR.frameBegin - 1) then
        some (Result.returned fromR)
      else none := by
  unfold checkRange
  rw [hkind]
  rfl

theorem checkRange_copy (sprite : Sprite) (fromR : DocumentRange)
    (place : DocumentRangePlace) (toR : DocumentRange)
    (hkind : fromR.type ≠ RangeType.kCels) :
    checkRange sprite Op.Copy fromR place toR = none := by
  unfold checkRange
  cases h : fromR.type with
  | kCels => exact absurd h hkind
  | kFrames => rfl
  | kLayers => rfl

theorem checkRange_cels (sprite : Sprite) (op : Op) (fromR : DocumentRange)
    (place : DocumentRangePlace) (toR : DocumentRange)
    (hkind : fromR.type = RangeType.kCels) :
    checkRange sprite op fromR place toR =
      if fromR.equals toR then some (Result.returned fromR) else none := by
  unfold checkRange
  rw [hkind]

theorem DocumentRange.equals_iff (a b : DocumentRange) : a.equals b = true ↔ a = b := by
  cases a
  cases b
  simp [DocumentRange.equals]

theorem backgroundScan_ne_returned (sprite : Sprite) (l : List Int) (r : DocumentRange) :
    backgroundScan sprite l ≠ some (Result.returned r) := by
  induction l with
  | nil => simp [backgroundScan]
  | cons i rest ih =>
    unfold backgroundScan
    cases sprite.indexToLayer i with
    | none => simp
    | some layer =>
      by_cases hb : layer.isBackground = true
      · simp [hb]
      · simpa [hb] using ih

/-- The only range the checks ever return is the source range. -/
theorem checkRange_returned (sprite : Sprite) (op : Op) (fromR : DocumentRange)
    (place : DocumentRangePlace) (toR r : DocumentRange)
    (h : checkRange sprite op fromR place toR = some (Result.returned r)) : r = fromR := by
  unfold checkRange at h
  split at h
  · split at h
    · simpa using h.symm
    · cases h
  · split at h
    · split at h
      · simpa using h.symm
      · cases h
    · cases h
  · split at h
    · split at h
      · simpa using h.symm
      · split at h
        · next res hres =>
          have h2 : res = Result.returned r := by simpa using h
          rw [h2] at hres
          exact absurd hres (backgroundScan_ne_returned _ _ _)
        · split at h
          · split at h
            · split at h
              · simp at h
              · cases h
            · cases h
          · cases h
    · cases h

/-! ## The transfer loops terminate on a source range with `begin ≤ end` -/

theorem DocumentRange.frames_toNat (r : DocumentRange) (h : r.frameBegin ≤ r.frameEnd) :
    ((r.frames.toNat : Nat) : Int) = r.frameEnd - r.frameBegin + 1 := by
  unfold DocumentRange.frames
  omega

theorem DocumentRange.layers_toNat (r : DocumentRange) (h : r.layerBegin ≤ r.layerEnd) :
    ((r.layers.toNat : Nat) : Int) = r.layerEnd - r.layerBegin + 1 := by
  unfold DocumentRange.layers
  omega

theorem framesPlan_srcStep_ne_zero (op : Op) (fromR : DocumentRange)
    (place : DocumentRangePlace) (toR : DocumentRange) :
    (framesPlan op fromR place toR).srcStep ≠ 0 := by
  unfold framesPlan
  cases op <;> cases place <;> simp only [] <;> split <;> simp

theorem framesPlan_srcEnd (op : Op) (fromR : DocumentRange) (place : DocumentRangePlace)
    (toR : DocumentRange) (h : fromR.frameBegin ≤ fromR.frameEnd) :
    (framesPlan op fromR place toR).srcEnd =
      (framesPlan op fromR place toR).srcBegin +
        (fromR.frames.toNat : Nat) * (framesPlan op fromR place toR).srcStep := by
  rw [fromR.frames_toNat h]
  unfold framesPlan
  cases op <;> cases place <;> simp only [] <;> split <;>
    simp only [DocumentRange.frames] <;> ring

/-- The Frames loop makes `from.frames()` passes, one primitive each. -/
theorem framesCalls_eq (op : Op) (fromR : DocumentRange) (place : DocumentRangePlace)
    (toR : DocumentRange) (h : fromR.frameBegin ≤ fromR.frameEnd) :
    framesCalls op fromR place toR =
      some (unroll (fun srcFrame dstFrame => [frameCall op srcFrame dstFrame])
        (framesPlan op fromR place toR).srcStep (framesPlan op fromR place toR).dstStep
        fromR.frames.toNat
        (framesPlan op fromR place toR).srcBegin (framesPlan op fromR place toR).dstBegin) :=
  Plan.run_eq_unroll _ _ _ (fun _ _ => rfl) _ (framesPlan_srcStep_ne_zero op fromR place toR)
    (framesPlan_srcEnd op fromR place toR h)

theorem celsFramePlan_srcStep_ne_zero (fromR toR : DocumentRange) :
    (celsFramePlan fromR toR).srcStep ≠ 0 := by
  unfold celsFramePlan
  split <;> simp

theorem celsFramePlan_srcEnd (fromR toR : DocumentRange)
    (h : fromR.frameBegin ≤ fromR.frameEnd) :
    (celsFramePlan fromR toR).srcEnd =
      (celsFramePlan fromR toR).srcBegin +
        (fromR.frames.toNat : Nat) * (celsFramePlan fromR toR).srcStep := by
  rw [fromR.frames_toNat h]
  unfold celsFramePlan
  split <;> simp only [] <;> ring

theorem celsLayerPlan_srcStep_ne_zero (fromR toR : DocumentRange) :
    (celsLayerPlan fromR toR).srcStep ≠ 0 := by
  unfold celsLayerPlan
  split <;> simp

theorem celsLayerPlan_srcEnd (fromR toR : DocumentRange)
    (h : fromR.layerBegin ≤ fromR.layerEnd) :
    (celsLayerPlan fromR toR).srcEnd =
      (celsLayerPlan fromR toR).srcBegin +
        (fromR.layers.toNat : Nat) * (celsLayerPlan fromR toR).srcStep := by
  rw [fromR.layers_toNat h]
  unfold celsLayerPlan
  split <;> simp only [] <;> ring

/-- The Cells loops make `from.layers()` outer passes of `from.frames()` inner passes,
one primitive each. -/
theorem celsCalls_eq (op : Op) (fromR toR : DocumentRange)
    (hl : fromR.layerBegin ≤ fromR.layerEnd) (hf : fromR.frameBegin ≤ fromR.frameEnd) :
    celsCalls op fromR toR =
      some (unroll
        (fun srcLayerIdx dstLayerIdx =>
          unroll (fun srcFrame dstFrame => [celCall op srcLayerIdx srcFrame dstLayerIdx dstFrame])
            (celsFramePlan fromR toR).srcStep (celsFramePlan fromR toR).dstStep
            fromR.frames.toNat
            (celsFramePlan fromR toR).srcBegin (celsFramePlan fromR toR).dstBegin)
        (celsLayerPlan fromR toR).srcStep (celsLayerPlan fromR toR).dstStep
        fromR.layers.toNat
        (celsLayerPlan fromR toR).srcBegin (celsLayerPlan fromR toR).dstBegin) :=
  Plan.run_eq_unroll _ _ _
    (fun _ _ => Plan.run_eq_unroll _ _ _ (fun _ _ => rfl) _
      (celsFramePlan_srcStep_ne_zero fromR toR) (celsFramePlan_srcEnd fromR toR hf))
    _ (celsLayerPlan_srcStep_ne_zero fromR toR) (celsLayerPlan_srcEnd fromR toR hl)

theorem framesResult_frames (k : RangeDecls) (op : Op) (fromR : DocumentRange)
    (place : DocumentRangePlace) (toR : DocumentRange) :
    (framesResult k op fromR place toR).frames = fromR.frames := by
  unfold framesResult
  cases place <;> simp only [] <;> split <;>
    simp only [DocumentRange.frames, DocumentRange.displace, DocumentRange.startRange,
      DocumentRange.endRange] <;> ring

theorem layersResult_layers (k : RangeDecls) (op : Op) (fromR : DocumentRange)
    (place : DocumentRangePlace) (toR : DocumentRange) :
    (layersResult k op fromR place toR).layers = fromR.layers := by
  unfold layersResult
  cases place <;> simp only [] <;> split <;>
    simp only [DocumentRange.layers, DocumentRange.displace, DocumentRange.startRange,
      DocumentRange.endRange] <;> ring

/-! ## No-op and invalid cases -/

/-- C1: moving a Cells-kind range `R` onto itself, with either placement, returns `R`
and makes no call at all: no transaction is opened and no `moveCel` or `copyCel` is
emitted, so the document is left as it was. -/
theorem move_range_cels_onto_itself (k : RangeDecls) (doc : Document) (R : DocumentRange)
    (place : DocumentRangePlace) (hR : R.type = RangeType.kCels) :
    move_range k doc R R place = ⟨[], Result.returned R⟩ := by
  simp [move_range, drop_range_op, checkRange, hR, DocumentRange.equals]

/-- C1 at the Cells range of layers 0..1, frames 2..3, placement After. -/
theorem move_range_cels_onto_itself_witness :
    (Cels 0 1 2 3).type = RangeType.kCels ∧
      move_range sampleDecls sampleDoc (Cels 0 1 2 3) (Cels 0 1 2 3)
        DocumentRangePlace.kDocumentRangeAfter = ⟨[], Result.returned (Cels 0 1 2 3)⟩ :=
  ⟨rfl, move_range_cels_onto_itself sampleDecls sampleDoc (Cels 0 1 2 3)
    DocumentRangePlace.kDocumentRangeAfter rfl⟩

/-- C2, as stated, fails: layers 0..1 hold the background layer (position 0), yet
moving them after layer 1, a destination inside the source span, returns the source
range and raises no error. -/
theorem move_range_background_noop_returns :
    sampleDoc.sprite.indexToLayer 0 = some ⟨true⟩ ∧
      (Layers 0 1).layerBegin ≤ 0 ∧ 0 ≤ (Layers 0 1).layerEnd ∧
      move_range sampleDecls sampleDoc (Layers 0 1) (Layers 1 1)
        DocumentRangePlace.kDocumentRangeAfter = ⟨[], Result.returned (Layers 0 1)⟩ := by
  decide

/-- C2, amended: a Layers-kind move whose source span starts at a position `≥ 0` and
holds the background layer, and whose destination is not a no-op (not inside the
source span, not Before at `from.layerEnd+1`, not After at `from.layerBegin-1`), throws
"The background layer cannot be moved" before making any call. -/
theorem move_range_background_throws (k : RangeDecls) (doc : Document)
    (fromR toR : DocumentRange) (place : DocumentRangePlace) (i : Int) (layer : Layer)
    (hkind : fromR.type = RangeType.kLayers)
    (h0 : 0 ≤ fromR.layerBegin) (hlo : fromR.layerBegin ≤ i) (hhi : i ≤ fromR.layerEnd)
    (hlayer : doc.sprite.indexToLayer i = some layer) (hbg : layer.isBackground = true)
    (hinside : ¬ (fromR.layerBegin ≤ toR.layerBegin ∧ toR.layerEnd ≤ fromR.layerEnd))
    (hbefore : ¬ (place = DocumentRangePlace.kDocumentRangeBefore ∧
      toR.layerBegin = fromR.layerEnd + 1))
    (hafter : ¬ (place = DocumentRangePlace.kDocumentRangeAfter ∧
      toR.layerEnd = fromR.layerBegin - 1)) :
    move_range k doc fromR toR place =
      ⟨[], Result.runtime_error "The background layer cannot be moved"⟩ := by
  have hscan := backgroundScan_hits doc.sprite i layer hlayer hbg (i - fromR.layerBegin).toNat
    fromR.layerBegin fromR.layerEnd h0 hlo hhi rfl
  have hnoop : ¬ ((toR.layerBegin ≥ fromR.layerBegin ∧ toR.layerEnd ≤ fromR.layerEnd) ∨
      (place = DocumentRangePlace.kDocumentRangeBefore ∧
        toR.layerBegin = fromR.layerEnd + 1) ∨
      (place = DocumentRangePlace.kDocumentRangeAfter ∧
        toR.layerEnd = fromR.layerBegin - 1)) := by
    rintro (h | h | h)
    · exact hinside ⟨h.1, h.2⟩
    · exact hbefore h
    · exact hafter h
  simp only [move_range, drop_range_op, checkRange, hkind, if_true, if_neg hnoop, hscan]

/-- C2, amended, at layers 0..1 (layer 0 the background) moved After layer 2. -/
theorem move_range_background_throws_witness :
    move_range sampleDecls sampleDoc (Layers 0 1) (Layers 2 2)
        DocumentRangePlace.kDocumentRangeAfter =
      ⟨[], Result.runtime_error "The background layer cannot be moved"⟩ :=
  move_range_background_throws sampleDecls sampleDoc (Layers 0 1) (Layers 2 2)
    DocumentRangePlace.kDocumentRangeAfter 0 ⟨true⟩ rfl (by decide) (by decide) (by decide)
    (by decide) rfl (by decide) (by decide) (by decide)

/-- C3, the code at the claim's input: with layer 0 the background, copying layers
1..2 Before the anchor layer 0 raises no error; the transaction is opened, a
`duplicateLayerBefore` is emitted for each source layer with the background as anchor,
and the range of layers 0..1 is returned. -/
theorem copy_range_before_background_proceeds :
    sampleDoc.sprite.indexToLayer (Layers 0 0).layerBegin = some ⟨true⟩ ∧
      copy_range sampleDecls sampleDoc (Layers 1 2) (Layers 0 0)
        DocumentRangePlace.kDocumentRangeBefore =
      ⟨[Call.begin "Copy Range", Call.duplicateLayerBefore 1 0,
          Call.duplicateLayerBefore 2 0, Call.commit],
        Result.returned ⟨RangeType.kLayers, 0, 1, -1, -1⟩⟩ := by
  decide

/-- C4, as stated, fails: layer 0 is the background and the placement is Before it,
yet moving layers 0..2 there, a destination inside the source span, returns the
source range and raises no error. -/
theorem move_range_before_background_noop_returns :
    sampleDoc.sprite.indexToLayer (Layers 0 0).layerBegin = some ⟨true⟩ ∧
      move_range sampleDecls sampleDoc (Layers 0 2) (Layers 0 0)
        DocumentRangePlace.kDocumentRangeBefore = ⟨[], Result.returned (Layers 0 2)⟩ := by
  decide

/-- C4, amended: a Layers-kind move with placement Before whose source span lies
inside the layer stack, whose destination is not a no-op (not inside the source span,
not at `from.layerEnd+1`), and whose anchor position `to.layerBegin` holds the
background layer, throws a `runtime_error` before making any call. -/
theorem move_range_before_background_throws (k : RangeDecls) (doc : Document)
    (fromR toR : DocumentRange) (background : Layer)
    (hkind : fromR.type = RangeType.kLayers)
    (h0 : 0 ≤ fromR.layerBegin) (h1 : fromR.layerEnd < doc.sprite.layers.length)
    (hinside : ¬ (fromR.layerBegin ≤ toR.layerBegin ∧ toR.layerEnd ≤ fromR.layerEnd))
    (hadjacent : toR.layerBegin ≠ fromR.layerEnd + 1)
    (hanchor : doc.sprite.indexToLayer toR.layerBegin = some background)
    (hbg : background.isBackground = true) :
    ∃ what, move_range k doc fromR toR DocumentRangePlace.kDocumentRangeBefore =
      ⟨[], Result.runtime_error what⟩ := by
  have hnoop : ¬ ((toR.layerBegin ≥ fromR.layerBegin ∧ toR.layerEnd ≤ fromR.layerEnd) ∨
      (DocumentRangePlace.kDocumentRangeBefore = DocumentRangePlace.kDocumentRangeBefore ∧
        toR.layerBegin = fromR.layerEnd + 1) ∨
      (DocumentRangePlace.kDocumentRangeBefore = DocumentRangePlace.kDocumentRangeAfter ∧
        toR.layerEnd = fromR.layerBegin - 1)) := by
    rintro (h | h | h)
    · exact hinside ⟨h.1, h.2⟩
    · exact hadjacent h.2
    · exact absurd h.1 (by decide)
  have hscan := backgroundScan_inside doc.sprite (indexRange fromR.layerBegin fromR.layerEnd)
    (fun j hj => by
      have := (mem_indexRange _ _ j).mp hj
      exact doc.sprite.indexToLayer_inside j (by omega) (by omega))
  rcases hscan with hscan | hscan
  · refine ⟨"You cannot move something below the background layer", ?_⟩
    have hchk : checkRange doc.sprite Op.Move fromR DocumentRangePlace.kDocumentRangeBefore toR =
        some (Result.runtime_error "You cannot move something below the background layer") := by
      rw [checkRange_layers_move _ _ _ _ hkind, if_neg hnoop, hscan]
      simp only [if_true, hanchor, hbg]
    simp only [move_range, drop_range_op, hchk]
  · refine ⟨"The background layer cannot be moved", ?_⟩
    have hchk : checkRange doc.sprite Op.Move fromR DocumentRangePlace.kDocumentRangeBefore toR =
        some (Result.runtime_error "The background layer cannot be moved") := by
      rw [checkRange_layers_move _ _ _ _ hkind, if_neg hnoop, hscan]
    simp only [move_range, drop_range_op, hchk]

/-- C4, amended, at layers 1..2 moved Before the background layer 0. -/
theorem move_range_before_background_throws_witness :
    ∃ what, move_range sampleDecls sampleDoc (Layers 1 2) (Layers 0 0)
        DocumentRangePlace.kDocumentRangeBefore = ⟨[], Result.runtime_error what⟩ :=
  move_range_before_background_throws sampleDecls sampleDoc (Layers 1 2) (Layers 0 0) ⟨true⟩
    rfl (by decide) (by decide) (by decide) (by decide) rfl rfl

/-- C5: validation is atomic.  Whenever `move_range` or `copy_range` (`drop_range_op`
with either `op`) ends with a thrown `runtime_error`, it has made no call; whenever it
is left by a `return from` of the no-op checks, it returns the source range and has
made no call; in every other case the first call made is the opening of the
transaction, so the error and the early return come strictly before it. -/
theorem validation_precedes_transaction (k : RangeDecls) (doc : Document) (op : Op)
    (fromR : DocumentRange) (place : DocumentRangePlace) (toR : DocumentRange) :
    ((∃ what, (drop_range_op k doc op fromR place toR).result = Result.runtime_error what) →
        (drop_range_op k doc op fromR place toR).trace = []) ∧
      (∀ r, checkRange doc.sprite op fromR place toR = some (Result.returned r) →
        drop_range_op k doc op fromR place toR = ⟨[], Result.returned fromR⟩) ∧
      (checkRange doc.sprite op fromR place toR = none →
        (drop_range_op k doc op fromR place toR).trace.head? =
          some (Call.begin (undoLabel op))) := by
  refine ⟨?_, ?_, ?_⟩
  · rintro ⟨what, hwhat⟩
    unfold drop_range_op at hwhat ⊢
    cases hchk : checkRange doc.sprite op fromR place toR with
    | some res => simp [hchk]
    | none =>
      simp only [hchk] at hwhat
      exfalso
      revert hwhat
      cases fromR.type with
      | kCels => cases celsCalls op fromR toR <;> simp
      | kFrames => cases framesCalls op fromR place toR <;> simp
      | kLayers => cases doc.sprite.layers <;> simp
  · intro r hr
    have := checkRange_returned _ _ _ _ _ _ hr
    subst this
    simp [drop_range_op, hr]
  · intro hchk
    unfold drop_range_op
    simp only [hchk]
    cases fromR.type with
    | kCels => cases celsCalls op fromR toR <;> simp
    | kFrames => cases framesCalls op fromR place toR <;> simp
    | kLayers => cases doc.sprite.layers <;> simp

/-- C5 at a move that throws, a copy of a Cells range onto itself, and a copy that
reaches the transaction. -/
theorem validation_precedes_transaction_witness :
    (move_range sampleDecls sampleDoc (Layers 1 2) (Layers 0 0)
        DocumentRangePlace.kDocumentRangeBefore).trace = [] ∧
      copy_range sampleDecls sampleDoc (Cels 0 1 2 3) (Cels 0 1 2 3)
        DocumentRangePlace.kDocumentRangeAfter = ⟨[], Result.returned (Cels 0 1 2 3)⟩ ∧
      (copy_range sampleDecls sampleDoc (Layers 1 2) (Layers 0 0)
        DocumentRangePlace.kDocumentRangeBefore).trace.head? =
          some (Call.begin "Copy Range") :=
  ⟨(validation_precedes_transaction sampleDecls sampleDoc Op.Move (Layers 1 2)
      DocumentRangePlace.kDocumentRangeBefore (Layers 0 0)).1
      ⟨"You cannot move something below the background layer", by decide⟩,
    (validation_precedes_transaction sampleDecls sampleDoc Op.Copy (Cels 0 1 2 3)
      DocumentRangePlace.kDocumentRangeAfter (Cels 0 1 2 3)).2.1 (Cels 0 1 2 3) (by decide),
    (validation_precedes_transaction sampleDecls sampleDoc Op.Copy (Layers 1 2)
      DocumentRangePlace.kDocumentRangeBefore (Layers 0 0)).2.2 (by decide)⟩

/-- C6: a Frames-kind move with placement Before whose destination begins at
`from.frameEnd+1`, or with placement After whose destination ends at
`from.frameBegin-1`, returns the source range and makes no call (no `moveFrame`, no
transaction). -/
theorem move_range_frames_adjacent (k : RangeDecls) (doc : Document)
    (fromR toR : DocumentRange) (place : DocumentRangePlace)
    (hkind : fromR.type = RangeType.kFrames)
    (hadj : (place = DocumentRangePlace.kDocumentRangeBefore ∧
        toR.frameBegin = fromR.frameEnd + 1) ∨
      (place = DocumentRangePlace.kDocumentRangeAfter ∧
        toR.frameEnd = fromR.frameBegin - 1)) :
    move_range k doc fromR toR place = ⟨[], Result.returned fromR⟩ := by
  have hchk : checkRange doc.sprite Op.Move fromR place toR =
      some (Result.returned fromR) := by
    rw [checkRange_frames_move _ _ _ _ hkind, if_pos (Or.inr hadj)]
  simp only [move_range, drop_range_op, hchk]

/-- C6 at frames 2..4 moved Before a destination beginning at frame 5. -/
theorem move_range_frames_adjacent_witness :
    move_range sampleDecls sampleDoc (Frames 2 4) (Frames 5 5)
        DocumentRangePlace.kDocumentRangeBefore = ⟨[], Result.returned (Frames 2 4)⟩ :=
  move_range_frames_adjacent sampleDecls sampleDoc (Frames 2 4) (Frames 5 5)
    DocumentRangePlace.kDocumentRangeBefore rfl (Or.inl ⟨rfl, by decide⟩)

/-- C7, as stated, fails: the destination frames 1..3 contain the source frame 2, yet
the move is carried out: `moveFrame(2, 1)` is emitted inside a transaction and the
range of frame 1 is returned, not the source range. -/
theorem move_range_frames_containing_destination_moves :
    (Frames 1 3).frameBegin ≤ (Frames 2 2).frameBegin ∧
      (Frames 2 2).frameEnd ≤ (Frames 1 3).frameEnd ∧
      move_range sampleDecls sampleDoc (Frames 2 2) (Frames 1 3)
        DocumentRangePlace.kDocumentRangeBefore =
      ⟨[Call.begin "Move Range", Call.moveFrame 2 1, Call.commit],
        Result.returned ⟨RangeType.kFrames, -1, -1, 1, 1⟩⟩ := by
  decide

/-- C7, amended: a Frames-kind move, either placement, whose destination span lies
inside or equals the source span (`from.frameBegin <= to.frameBegin` and
`to.frameEnd <= from.frameEnd`) returns the source range and makes no call. -/
theorem move_range_frames_inside_source (k : RangeDecls) (doc : Document)
    (fromR toR : DocumentRange) (place : DocumentRangePlace)
    (hkind : fromR.type = RangeType.kFrames)
    (hbegin : fromR.frameBegin ≤ toR.frameBegin) (hend : toR.frameEnd ≤ fromR.frameEnd) :
    move_range k doc fromR toR place = ⟨[], Result.returned fromR⟩ := by
  have hchk : checkRange doc.sprite Op.Move fromR place toR =
      some (Result.returned fromR) := by
    rw [checkRange_frames_move _ _ _ _ hkind, if_pos (Or.inl ⟨hbegin, hend⟩)]
  simp only [move_range, drop_range_op, hchk]

/-- C7, amended, at frames 1..3 moved After frame 2. -/
theorem move_range_frames_inside_source_witness :
    move_range sampleDecls sampleDoc (Frames 1 3) (Frames 2 2)
        DocumentRangePlace.kDocumentRangeAfter = ⟨[], Result.returned (Frames 1 3)⟩ :=
  move_range_frames_inside_source sampleDecls sampleDoc (Frames 1 3) (Frames 2 2)
    DocumentRangePlace.kDocumentRangeAfter rfl (by decide) (by decide)

/-! ## The returned range -/

/-- C8, as stated, fails on the Layers kind: on a document without layers
`copy_range` leaves the transfer `switch` at `if (layers.empty()) break;` and returns
the range as first declared, the same value whatever the source range; so for no
choice of that value can its `layers()` equal `from.layers()` for every source range
(`Layers 0 0` has one layer, `Layers 0 1` two). -/
theorem copy_range_layers_empty_stack_size :
    ¬ ∃ k : RangeDecls, ∀ fromR : DocumentRange,
      fromR.type = RangeType.kLayers → fromR.layerBegin ≤ fromR.layerEnd →
      ∀ r, (copy_range k emptyDoc fromR (Layers 0 0)
          DocumentRangePlace.kDocumentRangeBefore).result = Result.returned r →
        r.layers = fromR.layers := by
  rintro ⟨k, h⟩
  have h1 := h (Layers 0 0) rfl (by decide) k.fresh rfl
  have h2 := h (Layers 0 1) rfl (by decide) k.fresh rfl
  rw [h1] at h2
  exact absurd h2 (by decide)

/-- C8, amended: for either operation, both placements and every destination, a
Frames-kind transfer of a source with `frameBegin <= frameEnd` returns (no-op returns
included) a range with `from.frames()` frames; and every Layers-kind transfer that
returns on a document with at least one layer returns a range with `from.layers()`
layers. -/
theorem transfer_size_conserved (k : RangeDecls) (doc : Document) (op : Op)
    (fromR : DocumentRange) (place : DocumentRangePlace) (toR : DocumentRange) :
    (fromR.type = RangeType.kFrames → fromR.frameBegin ≤ fromR.frameEnd →
        ∃ r, (drop_range_op k doc op fromR place toR).result = Result.returned r ∧
          r.frames = fromR.frames) ∧
      (fromR.type = RangeType.kLayers → doc.sprite.layers ≠ [] →
        ∀ r, (drop_range_op k doc op fromR place toR).result = Result.returned r →
          r.layers = fromR.layers) := by
  constructor
  · intro hkind hwf
    cases hchk : checkRange doc.sprite op fromR place toR with
    | some res =>
      have hres : res = Result.returned fromR := by
        cases op with
        | Move =>
          rw [checkRange_frames_move _ _ _ _ hkind] at hchk
          split at hchk
          · simpa using hchk.symm
          · cases hchk
        | Copy =>
          rw [checkRange_copy _ _ _ _ (by rw [hkind]; decide)] at hchk
          cases hchk
      exact ⟨fromR, by simp [drop_range_op, hchk, hres], rfl⟩
    | none =>
      refine ⟨framesResult k op fromR place toR, ?_, framesResult_frames k op fromR place toR⟩
      simp [drop_range_op, hchk, hkind, framesCalls_eq op fromR place toR hwf]
  · intro hkind hne r hr
    cases hchk : checkRange doc.sprite op fromR place toR with
    | some res =>
      have hres : res = Result.returned r := by simpa [drop_range_op, hchk] using hr
      rw [hres] at hchk
      rw [checkRange_returned _ _ _ _ _ _ hchk]
    | none =>
      have hr2 : layersResult k op fromR place toR = r := by
        simpa [drop_range_op, hchk, hkind, hne] using hr
      rw [← hr2]
      exact layersResult_layers k op fromR place toR

/-- C8, amended, at a copy of frames 0..1 After frame 3 and a copy of layers 1..2 Before
layer 0. -/
theorem transfer_size_conserved_witness :
    (∃ r, (copy_range sampleDecls sampleDoc (Frames 0 1) (Frames 3 3)
          DocumentRangePlace.kDocumentRangeAfter).result = Result.returned r ∧
        r.frames = (Frames 0 1).frames) ∧
      (⟨RangeType.kLayers, 0, 1, -1, -1⟩ : DocumentRange).layers = (Layers 1 2).layers :=
  ⟨(transfer_size_conserved sampleDecls sampleDoc Op.Copy (Frames 0 1)
      DocumentRangePlace.kDocumentRangeAfter (Frames 3 3)).1 rfl (by decide),
    (transfer_size_conserved sampleDecls sampleDoc Op.Copy (Layers 1 2)
      DocumentRangePlace.kDocumentRangeBefore (Layers 0 0)).2 rfl (by decide)
      ⟨RangeType.kLayers, 0, 1, -1, -1⟩ (by decide)⟩

/-- C9, as stated, fails: moving the single cel (layer 0, frame 0) onto the Cells
range of frames 1..2 succeeds and returns the destination range, which has two
frames while the source has one. -/
theorem move_range_cels_returns_destination_size :
    move_range sampleDecls sampleDoc (Cels 0 0 0 0) (Cels 0 0 1 2)
        DocumentRangePlace.kDocumentRangeBefore =
      ⟨[Call.begin "Move Range", Call.moveCel 0 0 0 2, Call.commit],
        Result.returned (Cels 0 0 1 2)⟩ ∧
      (Cels 0 0 1 2).frames = 2 ∧ (Cels 0 0 0 0).frames = 1 := by
  decide

/-- C9, amended: for every Cells-kind `from`, whatever `to` is, a move or copy that
returns a range returns the destination range `to` and nothing else; so the returned
range has `from.frames()` frames exactly when `to` has, and `from.layers()` layers
exactly when `to` has; and the call does return `to` whenever `from` has `begin <= end`
on both axes. -/
theorem cels_transfer_size_conserved (k : RangeDecls) (doc : Document) (op : Op)
    (fromR : DocumentRange) (place : DocumentRangePlace) (toR : DocumentRange)
    (hkind : fromR.type = RangeType.kCels) :
    (∀ r, (drop_range_op k doc op fromR place toR).result = Result.returned r →
        r = toR ∧ (r.frames = fromR.frames ↔ toR.frames = fromR.frames) ∧
          (r.layers = fromR.layers ↔ toR.layers = fromR.layers)) ∧
      (fromR.layerBegin ≤ fromR.layerEnd → fromR.frameBegin ≤ fromR.frameEnd →
        (drop_range_op k doc op fromR place toR).result = Result.returned toR) := by
  have hchk := checkRange_cels doc.sprite op fromR place toR hkind
  by_cases heq : fromR.equals toR = true
  · rw [if_pos heq] at hchk
    have hft : fromR = toR := (DocumentRange.equals_iff _ _).mp heq
    have hres : (drop_range_op k doc op fromR place toR).result = Result.returned toR := by
      simp only [drop_range_op, hchk]
      rw [hft]
    refine ⟨fun r hr => ?_, fun _ _ => hres⟩
    rw [hres] at hr
    have : toR = r := by simpa using hr
    subst this
    exact ⟨rfl, Iff.rfl, Iff.rfl⟩
  · rw [if_neg heq] at hchk
    constructor
    · intro r hr
      have : toR = r := by
        unfold drop_range_op at hr
        simp only [hchk, hkind] at hr
        cases hc : celsCalls op fromR toR with
        | none => simp [hc] at hr
        | some calls => simpa [hc] using hr
      subst this
      exact ⟨rfl, Iff.rfl, Iff.rfl⟩
    · intro hl hf
      simp [drop_range_op, hchk, hkind, celsCalls_eq op fromR toR hl hf]

/-- C9, amended, at the move of the single cel (layer 0, frame 0) onto the Cells range
of frames 1..2, where the sizes differ and the returned range is still `to`, and at a
copy of the cels of layers 1..2, frames 0..1 onto frames 2..3, where the sizes agree and
the returned range has the frames and layers of the source. -/
theorem cels_transfer_size_conserved_witness :
    ((Cels 0 0 0 0).type = RangeType.kCels ∧
      (drop_range_op sampleDecls sampleDoc Op.Move (Cels 0 0 0 0)
          DocumentRangePlace.kDocumentRangeBefore (Cels 0 0 1 2)).result =
        Result.returned (Cels 0 0 1 2)) ∧
      ((Cels 1 2 0 1).type = RangeType.kCels ∧
        (drop_range_op sampleDecls sampleDoc Op.Copy (Cels 1 2 0 1)
            DocumentRangePlace.kDocumentRangeBefore (Cels 1 2 2 3)).result =
          Result.returned (Cels 1 2 2 3) ∧
        (Cels 1 2 2 3).frames = (Cels 1 2 0 1).frames ∧
        (Cels 1 2 2 3).layers = (Cels 1 2 0 1).layers) :=
  ⟨⟨rfl, (cels_transfer_size_conserved sampleDecls sampleDoc Op.Move (Cels 0 0 0 0)
      DocumentRangePlace.kDocumentRangeBefore (Cels 0 0 1 2) rfl).2 (by decide) (by decide)⟩,
    ⟨rfl, (cels_transfer_size_conserved sampleDecls sampleDoc Op.Copy (Cels 1 2 0 1)
      DocumentRangePlace.kDocumentRangeBefore (Cels 1 2 2 3) rfl).2 (by decide) (by decide),
      by decide, by decide⟩⟩

/-- C10, as stated, fails: the source frames 0..3 begin before the destination frames
1..2, but the destination lies inside the source span, so the move is a no-op and the
returned range begins at frame 0, not at `1 - 4`. -/
theorem move_range_frames_noop_not_displaced :
    (Frames 0 3).frameBegin < (Frames 1 2).frameBegin ∧
      move_range sampleDecls sampleDoc (Frames 0 3) (Frames 1 2)
        DocumentRangePlace.kDocumentRangeBefore = ⟨[], Result.returned (Frames 0 3)⟩ ∧
      (Frames 0 3).frameBegin ≠ (Frames 1 2).frameBegin - (Frames 0 3).frames := by
  decide

/-- C10, amended: a Frames-kind move with `from.frameBegin < to.frameBegin`, a source
with `frameBegin <= frameEnd` and a destination that does not lie inside the source
span (`from.frameEnd < to.frameEnd`) returns a range whose `frameBegin` is
`P - from.frames()`, with `P` the insertion point `to.frameBegin` for Before and
`to.frameEnd+1` for After. -/
theorem move_range_frames_displaced (k : RangeDecls) (doc : Document)
    (fromR toR : DocumentRange) (place : DocumentRangePlace)
    (hkind : fromR.type = RangeType.kFrames)
    (hlt : fromR.frameBegin < toR.frameBegin)
    (hwf : fromR.frameBegin ≤ fromR.frameEnd)
    (hout : fromR.frameEnd < toR.frameEnd) :
    ∃ r, (move_range k doc fromR toR place).result = Result.returned r ∧
      r.frameBegin =
        (match place with
          | DocumentRangePlace.kDocumentRangeBefore => toR.frameBegin
          | DocumentRangePlace.kDocumentRangeAfter => toR.frameEnd + 1) - fromR.frames := by
  have hchk := checkRange_frames_move doc.sprite fromR place toR hkind
  split at hchk
  · next hnoop =>
    refine ⟨fromR, by simp [move_range, drop_range_op, hchk], ?_⟩
    rcases hnoop with h | h | h
    · omega
    · obtain ⟨rfl, h⟩ := h
      simp only [DocumentRange.frames]
      omega
    · omega
  · refine ⟨framesResult k Op.Move fromR place toR, ?_, ?_⟩
    · simp [move_range, drop_range_op, hchk, hkind, framesCalls_eq Op.Move fromR place toR hwf]
    · unfold framesResult
      cases place <;>
        simp [hlt, DocumentRange.displace, DocumentRange.startRange, DocumentRange.endRange] <;>
        ring

/-- C10, amended, at frames 0..1 moved After frame 3. -/
theorem move_range_frames_displaced_witness :
    ∃ r, (move_range sampleDecls sampleDoc (Frames 0 1) (Frames 3 3)
          DocumentRangePlace.kDocumentRangeAfter).result = Result.returned r ∧
      r.frameBegin = (Frames 3 3).frameEnd + 1 - (Frames 0 1).frames :=
  move_range_frames_displaced sampleDecls sampleDoc (Frames 0 1) (Frames 3 3)
    DocumentRangePlace.kDocumentRangeAfter rfl (by decide) (by decide) (by decide)


/-! ## The calls of the Frames loop -/

theorem unroll_single (f : Int → Int → Call) (srcStep dstStep : Int) :
    ∀ (n : Nat) (src dst : Int),
      unroll (fun a b => [f a b]) srcStep dstStep n src dst =
        (List.range n).map (fun (k : Nat) => f (src + k * srcStep) (dst + k * dstStep)) := by
  intro n
  induction n with
  | zero => intro src dst; rfl
  | succ n ih =>
    intro src dst
    rw [unroll, ih, List.range_succ_eq_map]
    simp only [List.map_cons, List.map_map, List.singleton_append]
    congr 1
    · simp
    · apply List.map_congr_left
      intro a _
      simp only [Function.comp_apply]
      push_cast
      congr 1 <;> ring

/-- C20: the no-op rule as implemented.  A Frames-kind move whose destination frame
span lies inside the source frame span, and likewise a Layers-kind move whose
destination layer span lies inside the source layer span, returns the source range
for either placement; no error is raised and no call is made. -/
theorem move_range_inside_source_noop (k : RangeDecls) (doc : Document)
    (fromR toR : DocumentRange) (place : DocumentRangePlace)
    (hinside : (fromR.type = RangeType.kFrames ∧
        fromR.frameBegin ≤ toR.frameBegin ∧ toR.frameEnd ≤ fromR.frameEnd) ∨
      (fromR.type = RangeType.kLayers ∧
        fromR.layerBegin ≤ toR.layerBegin ∧ toR.layerEnd ≤ fromR.layerEnd)) :
    move_range k doc fromR toR place = ⟨[], Result.returned fromR⟩ := by
  have hchk : checkRange doc.sprite Op.Move fromR place toR =
      some (Result.returned fromR) := by
    rcases hinside with ⟨hkind, h1, h2⟩ | ⟨hkind, h1, h2⟩
    · rw [checkRange_frames_move _ _ _ _ hkind, if_pos (Or.inl ⟨h1, h2⟩)]
    · rw [checkRange_layers_move _ _ _ _ hkind, if_pos (Or.inl ⟨h1, h2⟩)]
  simp only [move_range, drop_range_op, hchk]

/-- C20 at frames 0..3 moved After frames 1..2, and at layers 0..2, which hold the
background layer, moved Before layer 1. -/
theorem move_range_inside_source_noop_witness :
    move_range sampleDecls sampleDoc (Frames 0 3) (Frames 1 2)
        DocumentRangePlace.kDocumentRangeAfter = ⟨[], Result.returned (Frames 0 3)⟩ ∧
      move_range sampleDecls sampleDoc (Layers 0 2) (Layers 1 1)
        DocumentRangePlace.kDocumentRangeBefore = ⟨[], Result.returned (Layers 0 2)⟩ :=
  ⟨move_range_inside_source_noop sampleDecls sampleDoc (Frames 0 3) (Frames 1 2)
      DocumentRangePlace.kDocumentRangeAfter (Or.inl ⟨rfl, by decide, by decide⟩),
    move_range_inside_source_noop sampleDecls sampleDoc (Layers 0 2) (Layers 1 1)
      DocumentRangePlace.kDocumentRangeBefore (Or.inr ⟨rfl, by decide, by decide⟩)⟩


/-- The Frames loop in closed form: pass `j` calls the primitive at the `j`-th values
of the two loop variables. -/
theorem framesCalls_eq_map (op : Op) (fromR : DocumentRange) (place : DocumentRangePlace)
    (toR : DocumentRange) (h : fromR.frameBegin ≤ fromR.frameEnd) :
    framesCalls op fromR place toR =
      some ((List.range fromR.frames.toNat).map (fun (j : Nat) =>
        frameCall op
          ((framesPlan op fromR place toR).srcBegin + j * (framesPlan op fromR place toR).srcStep)
          ((framesPlan op fromR place toR).dstBegin + j * (framesPlan op fromR place toR).dstStep))) := by
  rw [framesCalls_eq op fromR place toR h, unroll_single]

/-- C18: for a Frames-kind source with `frameBegin <= frameEnd`, every destination,
both placements and both operations, the loop with exit test `srcFrame != srcFrameEnd`
terminates after exactly `from.frames()` primitive calls, which are all the calls made
between the opening and the commit of the transaction when the call is not a no-op
return.  In the forward Copy branches call `j` (counted from 0) reads source index
`from.frameBegin + 2j` and writes index `dstFrameBegin + j`; in the backward Copy
branches call `j` reads `from.frameEnd - j` and every call writes index
`dstFrameBegin`. -/
theorem frames_loop_calls (k : RangeDecls) (doc : Document) (op : Op)
    (fromR : DocumentRange) (place : DocumentRangePlace) (toR : DocumentRange)
    (hwf : fromR.frameBegin ≤ fromR.frameEnd) :
    ∃ calls : List Call,
      framesCalls op fromR place toR = some calls ∧
      (calls.length : Int) = fromR.frames ∧
      (fromR.type = RangeType.kFrames → checkRange doc.sprite op fromR place toR = none →
        (drop_range_op k doc op fromR place toR).trace =
          Call.begin (undoLabel op) :: calls ++ [Call.commit]) ∧
      (op = Op.Copy →
        ((place = DocumentRangePlace.kDocumentRangeBefore ∧
            toR.frameBegin ≤ fromR.frameBegin) ∨
          (place = DocumentRangePlace.kDocumentRangeAfter ∧
            toR.frameEnd ≤ fromR.frameBegin)) →
        calls = (List.range fromR.frames.toNat).map (fun (j : Nat) =>
          Call.copyFrame (fromR.frameBegin + 2 * j)
            ((framesPlan op fromR place toR).dstBegin + j))) ∧
      (op = Op.Copy →
        ((place = DocumentRangePlace.kDocumentRangeBefore ∧
            fromR.frameBegin < toR.frameBegin) ∨
          (place = DocumentRangePlace.kDocumentRangeAfter ∧
            fromR.frameBegin < toR.frameEnd)) →
        calls = (List.range fromR.frames.toNat).map (fun (j : Nat) =>
          Call.copyFrame (fromR.frameEnd - j) (framesPlan op fromR place toR).dstBegin)) := by
  refine ⟨_, framesCalls_eq_map op fromR place toR hwf, ?_, ?_, ?_, ?_⟩
  · rw [List.length_map, List.length_range]
    unfold DocumentRange.frames
    omega
  · intro hkind hchk
    simp [drop_range_op, hchk, hkind, framesCalls_eq_map op fromR place toR hwf]
  · rintro rfl hfwd
    apply List.map_congr_left
    intro j _
    rcases hfwd with ⟨rfl, h⟩ | ⟨rfl, h⟩ <;>
      simp only [framesPlan, if_pos h, frameCall] <;> congr 1 <;> ring
  · rintro rfl hbwd
    apply List.map_congr_left
    intro j _
    rcases hbwd with ⟨rfl, h⟩ | ⟨rfl, h⟩ <;>
      simp only [framesPlan, if_neg (not_le.mpr h), frameCall] <;> congr 1 <;> ring

/-- C18 at the copy of frames 0..1 After frame 3 (a backward branch): two calls, reading
frames 1 and 0 and both writing index 4. -/
theorem frames_loop_calls_witness :
    ∃ calls : List Call,
      framesCalls Op.Copy (Frames 0 1) DocumentRangePlace.kDocumentRangeAfter (Frames 3 3) =
        some calls ∧
      (calls.length : Int) = (Frames 0 1).frames ∧
      calls = [Call.copyFrame 1 4, Call.copyFrame 0 4] := by
  obtain ⟨calls, h1, h2, _, _, h5⟩ := frames_loop_calls sampleDecls sampleDoc Op.Copy
    (Frames 0 1) DocumentRangePlace.kDocumentRangeAfter (Frames 3 3) (by decide)
  exact ⟨calls, h1, h2, (h5 rfl (Or.inr ⟨rfl, by decide⟩)).trans (by decide)⟩


/-! ## The calls of the Cells loops -/

theorem unroll_eq_flatMap (g : Int → Int → List Call) (srcStep dstStep : Int) :
    ∀ (n : Nat) (src dst : Int),
      unroll g srcStep dstStep n src dst =
        (List.range n).flatMap (fun (j : Nat) => g (src + j * srcStep) (dst + j * dstStep)) := by
  intro n
  induction n with
  | zero => intro src dst; rfl
  | succ n ih =>
    intro src dst
    rw [unroll, ih, List.range_succ_eq_map, List.flatMap_cons, List.flatMap_map]
    congr 1
    · simp
    · apply List.flatMap_congr
      intro a _
      push_cast
      congr 1 <;> ring

theorem indexRange_nodup (lo hi : Int) : (indexRange lo hi).Nodup := by
  unfold indexRange
  refine List.Nodup.map ?_ (List.nodup_range _)
  intro a b h
  simpa using h

theorem mem_visitOrder (forward : Bool) (lo hi j : Int) :
    j ∈ visitOrder forward lo hi ↔ lo ≤ j ∧ j ≤ hi := by
  unfold visitOrder
  cases forward <;> simp [mem_indexRange]

theorem visitOrder_nodup (forward : Bool) (lo hi : Int) : (visitOrder forward lo hi).Nodup := by
  unfold visitOrder
  cases forward <;> simp [indexRange_nodup]

theorem indexRange_reverse (lo hi : Int) :
    (indexRange lo hi).reverse =
      (List.range (hi + 1 - lo).toNat).map (fun (j : Nat) => hi - (j : Int)) := by
  unfold indexRange
  rw [← List.map_reverse, List.range_eq_range', List.reverse_range', List.map_map,
    ← List.range_eq_range']
  apply List.map_congr_left
  intro a ha
  have := List.mem_range.mp ha
  simp only [Function.comp_apply]
  omega

theorem visitOrder_eq_map (forward : Bool) (lo hi : Int) :
    visitOrder forward lo hi =
      (List.range (hi + 1 - lo).toNat).map
        (fun (j : Nat) => if forward then lo + (j : Int) else hi - (j : Int)) := by
  unfold visitOrder
  cases forward
  · simp [indexRange_reverse]
  · simp [indexRange]


/-- The Cells loops in closed form: the source layers are walked in the order of the
layer axis, inside each the source frames in the order of the frame axis, and the cel
`(l, f)` is sent to the cel translated by the offset between the two ranges. -/
theorem celsCalls_eq_flatMap (op : Op) (fromR toR : DocumentRange)
    (hl : fromR.layerBegin ≤ fromR.layerEnd) (hf : fromR.frameBegin ≤ fromR.frameEnd)
    (hlayers : toR.layers = fromR.layers) (hframes : toR.frames = fromR.frames) :
    celsCalls op fromR toR =
      some ((visitOrder (decide (toR.layerBegin ≤ fromR.layerBegin))
          fromR.layerBegin fromR.layerEnd).flatMap (fun l =>
        (visitOrder (decide (toR.frameBegin ≤ fromR.frameBegin))
          fromR.frameBegin fromR.frameEnd).map (fun f =>
            celCall op l f (l + (toR.layerBegin - fromR.layerBegin))
              (f + (toR.frameBegin - fromR.frameBegin))))) := by
  have hnl : fromR.layers = fromR.layerEnd + 1 - fromR.layerBegin := by
    unfold DocumentRange.layers; ring
  have hnf : fromR.frames = fromR.frameEnd + 1 - fromR.frameBegin := by
    unfold DocumentRange.frames; ring
  have hdl : toR.layerEnd - fromR.layerEnd = toR.layerBegin - fromR.layerBegin := by
    unfold DocumentRange.layers at hlayers; omega
  have hdf : toR.frameEnd - fromR.frameEnd = toR.frameBegin - fromR.frameBegin := by
    unfold DocumentRange.frames at hframes; omega
  rw [celsCalls_eq op fromR toR hl hf, unroll_eq_flatMap]
  simp only [unroll_single]
  rw [visitOrder_eq_map, visitOrder_eq_map, List.flatMap_map, hnl, hnf]
  congr 1
  apply List.flatMap_congr
  intro i _
  rw [List.map_map]
  apply List.map_congr_left
  intro j _
  simp only [Function.comp_apply]
  by_cases hL : toR.layerBegin ≤ fromR.layerBegin <;>
    by_cases hF : toR.frameBegin ≤ fromR.frameBegin <;>
    simp only [celsLayerPlan, celsFramePlan, hL, hF, if_true, if_false, decide_True,
      decide_False, Bool.false_eq_true] <;>
    congr 1 <;> omega


theorem celCall_srcCel (op : Op) (l f l2 f2 : Int) :
    (celCall op l f l2 f2).srcCel = some (l, f) := by
  cases op <;> rfl

theorem celCall_dstCel (op : Op) (l f l2 f2 : Int) :
    (celCall op l f l2 f2).dstCel = some (l2, f2) := by
  cases op <;> rfl

theorem visitOrder_length (forward : Bool) (lo hi : Int) :
    (visitOrder forward lo hi).length = (hi + 1 - lo).toNat := by
  rw [visitOrder_eq_map, List.length_map, List.length_range]

/-- C17: a Cells-kind move or copy between two different ranges of equal dimensions
(with `begin <= end` on both axes) is the translation `from -> to`.  The nested loop
ends; between the opening and the commit of the transaction it makes exactly
`from.layers() * from.frames()` calls, walking the layer axis in the outer loop and the
frame axis in the inner one; no call is made twice; the call sending `(l, f)` to
`(l + to.layerBegin - from.layerBegin, f + to.frameBegin - from.frameBegin)` is made
exactly for the cells `(l, f)` of `from`, and a call whose source is `(l, f)` is that
call; and the cells written are exactly the cells of `to`. -/
theorem cels_transfer_is_translation (k : RangeDecls) (doc : Document) (op : Op)
    (fromR : DocumentRange) (place : DocumentRangePlace) (toR : DocumentRange)
    (hkind : fromR.type = RangeType.kCels) (hne : fromR ≠ toR)
    (hl : fromR.layerBegin ≤ fromR.layerEnd) (hf : fromR.frameBegin ≤ fromR.frameEnd)
    (hlayers : toR.layers = fromR.layers) (hframes : toR.frames = fromR.frames) :
    ∃ calls : List Call,
      drop_range_op k doc op fromR place toR =
        ⟨Call.begin (undoLabel op) :: calls ++ [Call.commit], Result.returned toR⟩ ∧
      calls =
        (visitOrder (decide (toR.layerBegin ≤ fromR.layerBegin))
          fromR.layerBegin fromR.layerEnd).flatMap (fun l =>
            (visitOrder (decide (toR.frameBegin ≤ fromR.frameBegin))
              fromR.frameBegin fromR.frameEnd).map (fun f =>
                celCall op l f (l + (toR.layerBegin - fromR.layerBegin))
                  (f + (toR.frameBegin - fromR.frameBegin)))) ∧
      (calls.length : Int) = fromR.layers * fromR.frames ∧
      calls.Nodup ∧
      (∀ l f, celCall op l f (l + (toR.layerBegin - fromR.layerBegin))
            (f + (toR.frameBegin - fromR.frameBegin)) ∈ calls ↔
          (fromR.layerBegin ≤ l ∧ l ≤ fromR.layerEnd) ∧
            (fromR.frameBegin ≤ f ∧ f ≤ fromR.frameEnd)) ∧
      (∀ c ∈ calls, ∀ l f, c.srcCel = some (l, f) →
          c = celCall op l f (l + (toR.layerBegin - fromR.layerBegin))
            (f + (toR.frameBegin - fromR.frameBegin))) ∧
      (∀ l f, (∃ c ∈ calls, c.dstCel = some (l, f)) ↔
          (toR.layerBegin ≤ l ∧ l ≤ toR.layerEnd) ∧
            (toR.frameBegin ≤ f ∧ f ≤ toR.frameEnd)) := by
  have hcalls := celsCalls_eq_flatMap op fromR toR hl hf hlayers hframes
  have hchk : checkRange doc.sprite op fromR place toR = none := by
    rw [checkRange_cels _ _ _ _ _ hkind, if_neg]
    intro h
    exact hne ((DocumentRange.equals_iff _ _).mp h)
  have hmem : ∀ c, c ∈ (visitOrder (decide (toR.layerBegin ≤ fromR.layerBegin))
        fromR.layerBegin fromR.layerEnd).flatMap (fun l =>
          (visitOrder (decide (toR.frameBegin ≤ fromR.frameBegin))
            fromR.frameBegin fromR.frameEnd).map (fun f =>
              celCall op l f (l + (toR.layerBegin - fromR.layerBegin))
                (f + (toR.frameBegin - fromR.frameBegin)))) ↔
      ∃ l f, (fromR.layerBegin ≤ l ∧ l ≤ fromR.layerEnd) ∧
        (fromR.frameBegin ≤ f ∧ f ≤ fromR.frameEnd) ∧
        c = celCall op l f (l + (toR.layerBegin - fromR.layerBegin))
          (f + (toR.frameBegin - fromR.frameBegin)) := by
    intro c
    simp only [List.mem_flatMap, List.mem_map, mem_visitOrder]
    constructor
    · rintro ⟨l, hl2, f, hf2, rfl⟩
      exact ⟨l, f, hl2, hf2, rfl⟩
    · rintro ⟨l, f, hl2, hf2, rfl⟩
      exact ⟨l, hl2, f, hf2, rfl⟩
  have hsrc : ∀ l f l2 f2 a b a2 b2, celCall op l f a b = celCall op l2 f2 a2 b2 →
      l = l2 ∧ f = f2 := by
    intro l f l2 f2 a b a2 b2 h
    have := congrArg Call.srcCel h
    simpa [celCall_srcCel] using this
  refine ⟨_, ?_, rfl, ?_, ?_, ?_, ?_, ?_⟩
  · simp [drop_range_op, hchk, hkind, hcalls]
  · rw [List.length_flatMap]
    simp only [Function.comp_def, List.length_map, visitOrder_length, List.map_const',
      List.sum_replicate, smul_eq_mul]
    unfold DocumentRange.layers DocumentRange.frames
    push_cast
    rw [Int.toNat_of_nonneg (by omega), Int.toNat_of_nonneg (by omega)]
    ring
  · rw [List.nodup_flatMap]
    constructor
    · intro l _
      refine List.Nodup.map ?_ (visitOrder_nodup _ _ _)
      intro f f2 h
      exact (hsrc _ _ _ _ _ _ _ _ h).2
    · refine List.Nodup.pairwise_of_forall_ne (visitOrder_nodup _ _ _) ?_
      intro l _ l2 _ hll c hc hc2
      simp only [List.mem_map] at hc hc2
      obtain ⟨f, _, rfl⟩ := hc
      obtain ⟨f2, _, h⟩ := hc2
      exact hll (hsrc _ _ _ _ _ _ _ _ h).1.symm
  · intro l f
    rw [hmem]
    constructor
    · rintro ⟨l2, f2, hl2, hf2, h⟩
      obtain ⟨rfl, rfl⟩ := hsrc _ _ _ _ _ _ _ _ h
      exact ⟨hl2, hf2⟩
    · rintro ⟨hl2, hf2⟩
      exact ⟨l, f, hl2, hf2, rfl⟩
  · intro c hc l f hcsrc
    obtain ⟨l2, f2, _, _, rfl⟩ := (hmem c).mp hc
    rw [celCall_srcCel] at hcsrc
    have : l2 = l ∧ f2 = f := by simpa using hcsrc
    obtain ⟨rfl, rfl⟩ := this
    rfl
  · intro l f
    have hdl : toR.layerEnd - fromR.layerEnd = toR.layerBegin - fromR.layerBegin := by
      unfold DocumentRange.layers at hlayers; omega
    have hdf : toR.frameEnd - fromR.frameEnd = toR.frameBegin - fromR.frameBegin := by
      unfold DocumentRange.frames at hframes; omega
    constructor
    · rintro ⟨c, hc, hdst⟩
      obtain ⟨l2, f2, hl2, hf2, rfl⟩ := (hmem c).mp hc
      rw [celCall_dstCel] at hdst
      have : l2 + (toR.layerBegin - fromR.layerBegin) = l ∧
          f2 + (toR.frameBegin - fromR.frameBegin) = f := by simpa using hdst
      omega
    · rintro ⟨hl2, hf2⟩
      refine ⟨celCall op (l - (toR.layerBegin - fromR.layerBegin))
        (f - (toR.frameBegin - fromR.frameBegin)) l f, ?_, celCall_dstCel _ _ _ _ _⟩
      rw [hmem]
      refine ⟨l - (toR.layerBegin - fromR.layerBegin),
        f - (toR.frameBegin - fromR.frameBegin), by omega, by omega, ?_⟩
      congr 1 <;> ring

/-- C17 at the move of the cels of layers 1..2, frames 0..1 onto layers 0..1, frames
1..2: layers upwards, frames downwards. -/
theorem cels_transfer_is_translation_witness :
    ∃ calls : List Call,
      drop_range_op sampleDecls sampleDoc Op.Move (Cels 1 2 0 1)
          DocumentRangePlace.kDocumentRangeBefore (Cels 0 1 1 2) =
        ⟨Call.begin "Move Range" :: calls ++ [Call.commit], Result.returned (Cels 0 1 1 2)⟩ ∧
      calls = [Call.moveCel 1 1 0 2, Call.moveCel 1 0 0 1, Call.moveCel 2 1 1 2,
        Call.moveCel 2 0 1 1] := by
  obtain ⟨calls, h1, h2, _⟩ := cels_transfer_is_translation sampleDecls sampleDoc Op.Move
    (Cels 1 2 0 1) DocumentRangePlace.kDocumentRangeBefore (Cels 0 1 1 2) rfl (by decide)
    (by decide) (by decide) (by decide) (by decide)
  exact ⟨calls, h1, h2.trans (by decide)⟩


/-! ## No cell is overwritten before it is read -/

/-- A relation that holds inside every pass of a loop, and between the calls of an
earlier and of a later pass, holds between any two calls of the loop in their order;
and every call of the loop is a call of one of its passes. -/
theorem forNe_pairwise (R : Call → Call → Prop) (body : Int → Int → Option (List Call))
    (srcEnd srcStep dstStep src0 dst0 : Int)
    (hin : ∀ (m : Nat) (L : List Call),
      body (src0 + m * srcStep) (dst0 + m * dstStep) = some L → L.Pairwise R)
    (hcross : ∀ (m1 m2 : Nat) (L1 L2 : List Call), m1 < m2 →
      body (src0 + m1 * srcStep) (dst0 + m1 * dstStep) = some L1 →
      body (src0 + m2 * srcStep) (dst0 + m2 * dstStep) = some L2 →
      ∀ a ∈ L1, ∀ b ∈ L2, R a b) :
    ∀ (fuel m0 : Nat) (calls : List Call),
      forNe body srcEnd srcStep dstStep fuel (src0 + m0 * srcStep) (dst0 + m0 * dstStep) =
        some calls →
      calls.Pairwise R ∧
        ∀ c ∈ calls, ∃ (m : Nat) (L : List Call), m0 ≤ m ∧
          body (src0 + m * srcStep) (dst0 + m * dstStep) = some L ∧ c ∈ L := by
  intro fuel
  induction fuel with
  | zero =>
    intro m0 calls h
    unfold forNe at h
    split at h
    · cases h
      exact ⟨List.Pairwise.nil, by simp⟩
    · cases h
  | succ fuel ih =>
    intro m0 calls h
    unfold forNe at h
    split at h
    · cases h
      exact ⟨List.Pairwise.nil, by simp⟩
    · cases hb : body (src0 + m0 * srcStep) (dst0 + m0 * dstStep) with
      | none => simp [hb] at h
      | some L =>
        simp only [hb] at h
        have e1 : src0 + (m0 : Int) * srcStep + srcStep = src0 + ((m0 + 1 : Nat) : Int) * srcStep := by
          push_cast; ring
        have e2 : dst0 + (m0 : Int) * dstStep + dstStep = dst0 + ((m0 + 1 : Nat) : Int) * dstStep := by
          push_cast; ring
        rw [e1, e2] at h
        cases hr : forNe body srcEnd srcStep dstStep fuel
            (src0 + ((m0 + 1 : Nat) : Int) * srcStep) (dst0 + ((m0 + 1 : Nat) : Int) * dstStep) with
        | none =>
          rw [hr] at h
          cases h
        | some rest =>
          rw [hr] at h
          cases h
          obtain ⟨hp, hm⟩ := ih (m0 + 1) rest hr
          refine ⟨List.pairwise_append.mpr ⟨hin m0 L hb, hp, ?_⟩, ?_⟩
          · intro a ha b hb2
            obtain ⟨m, L2, hm0, hL2, hbL2⟩ := hm b hb2
            exact hcross m0 m L L2 (by omega) hb hL2 a ha b hbL2
          · intro c hc
            rcases List.mem_append.mp hc with hc | hc
            · exact ⟨m0, L, le_refl _, hb, hc⟩
            · obtain ⟨m, L2, hm0, hL2, hcL2⟩ := hm c hc
              exact ⟨m, L2, by omega, hL2, hcL2⟩


theorem celsFramePlan_no_hazard (fromR toR : DocumentRange)
    (hframes : toR.frames = fromR.frames) (j1 j2 : Nat) (h : j1 < j2) :
    (celsFramePlan fromR toR).dstBegin + j1 * (celsFramePlan fromR toR).dstStep ≠
      (celsFramePlan fromR toR).srcBegin + j2 * (celsFramePlan fromR toR).srcStep := by
  unfold DocumentRange.frames at hframes
  unfold celsFramePlan
  split <;> simp only [] <;> omega

theorem celsLayerPlan_no_hazard (fromR toR : DocumentRange)
    (hlayers : toR.layers = fromR.layers) (m1 m2 : Nat) (h : m1 < m2) :
    (celsLayerPlan fromR toR).dstBegin + m1 * (celsLayerPlan fromR toR).dstStep ≠
      (celsLayerPlan fromR toR).srcBegin + m2 * (celsLayerPlan fromR toR).srcStep := by
  unfold DocumentRange.layers at hlayers
  unfold celsLayerPlan
  split <;> simp only [] <;> omega

/-- The calls of the Cells loops, whenever the loops end: no call writes the cell a
later call reads. -/
theorem celsCalls_no_hazard (op : Op) (fromR toR : DocumentRange)
    (hlayers : toR.layers = fromR.layers) (hframes : toR.frames = fromR.frames)
    (calls : List Call) (h : celsCalls op fromR toR = some calls) :
    calls.Pairwise (fun a b => ∀ c, a.dstCel = some c → b.srcCel ≠ some c) := by
  have hinner : ∀ (sl dl : Int) (L : List Call),
      (celsFramePlan fromR toR).run
        (fun srcFrame dstFrame => some [celCall op sl srcFrame dl dstFrame]) = some L →
      L.Pairwise (fun a b => ∀ c, a.dstCel = some c → b.srcCel ≠ some c) ∧
        ∀ c ∈ L, c.srcCel.map Prod.fst = some sl ∧ c.dstCel.map Prod.fst = some dl := by
    intro sl dl L hL
    unfold Plan.run at hL
    have := forNe_pairwise (fun a b => ∀ c, a.dstCel = some c → b.srcCel ≠ some c)
      (fun srcFrame dstFrame => some [celCall op sl srcFrame dl dstFrame])
      (celsFramePlan fromR toR).srcEnd (celsFramePlan fromR toR).srcStep
      (celsFramePlan fromR toR).dstStep (celsFramePlan fromR toR).srcBegin
      (celsFramePlan fromR toR).dstBegin
      (by
        intro m L2 hL2
        cases hL2
        exact List.pairwise_singleton _ _)
      (by
        intro j1 j2 L1 L2 hj h1 h2 a ha b hb c hac hbc
        cases h1
        cases h2
        rw [List.mem_singleton] at ha hb
        subst ha
        subst hb
        rw [celCall_dstCel] at hac
        rw [celCall_srcCel] at hbc
        cases hac
        have : (celsFramePlan fromR toR).srcBegin + j2 * (celsFramePlan fromR toR).srcStep =
            (celsFramePlan fromR toR).dstBegin + j1 * (celsFramePlan fromR toR).dstStep := by
          simpa using (congrArg Prod.snd (Option.some.inj hbc))
        exact celsFramePlan_no_hazard fromR toR hframes j1 j2 hj this.symm)
      _ 0 L (by simpa using hL)
    refine ⟨this.1, ?_⟩
    intro c hc
    obtain ⟨m, L2, _, hL2, hcL2⟩ := this.2 c hc
    cases hL2
    rw [List.mem_singleton] at hcL2
    subst hcL2
    simp [celCall_srcCel, celCall_dstCel]
  unfold celsCalls Plan.run at h
  have := forNe_pairwise (fun a b => ∀ c, a.dstCel = some c → b.srcCel ≠ some c)
    (fun srcLayerIdx dstLayerIdx =>
      forNe (fun srcFrame dstFrame => some [celCall op srcLayerIdx srcFrame dstLayerIdx dstFrame])
        (celsFramePlan fromR toR).srcEnd (celsFramePlan fromR toR).srcStep
        (celsFramePlan fromR toR).dstStep
        ((celsFramePlan fromR toR).srcEnd - (celsFramePlan fromR toR).srcBegin).natAbs
        (celsFramePlan fromR toR).srcBegin (celsFramePlan fromR toR).dstBegin)
    (celsLayerPlan fromR toR).srcEnd (celsLayerPlan fromR toR).srcStep
    (celsLayerPlan fromR toR).dstStep (celsLayerPlan fromR toR).srcBegin
    (celsLayerPlan fromR toR).dstBegin
    (by
      intro m L hL
      exact (hinner _ _ L hL).1)
    (by
      intro m1 m2 L1 L2 hm h1 h2 a ha b hb c hac hbc
      have ha2 := ((hinner _ _ L1 h1).2 a ha).2
      have hb2 := ((hinner _ _ L2 h2).2 b hb).1
      rw [hac] at ha2
      rw [hbc] at hb2
      have e1 : c.1 = (celsLayerPlan fromR toR).dstBegin +
          m1 * (celsLayerPlan fromR toR).dstStep := by simpa using ha2
      have e2 : c.1 = (celsLayerPlan fromR toR).srcBegin +
          m2 * (celsLayerPlan fromR toR).srcStep := by simpa using hb2
      exact celsLayerPlan_no_hazard fromR toR hlayers m1 m2 hm (e1.symm.trans e2))
    _ 0 calls (by simpa using h)
  exact this.1

/-- C16: in a Cells-kind move or copy between ranges with the same number of layers
and the same number of frames, whatever their overlap, no call of the trace writes a
cell that a later call reads: for calls `a` before `b`, the destination cell of `a` is
not the source cell of `b`.  (When `from == to` the trace is empty.) -/
theorem cels_transfer_no_hazard (k : RangeDecls) (doc : Document) (op : Op)
    (fromR : DocumentRange) (place : DocumentRangePlace) (toR : DocumentRange)
    (hkind : fromR.type = RangeType.kCels)
    (hlayers : toR.layers = fromR.layers) (hframes : toR.frames = fromR.frames) :
    (drop_range_op k doc op fromR place toR).trace.Pairwise
      (fun a b => ∀ c, a.dstCel = some c → b.srcCel ≠ some c) := by
  unfold drop_range_op
  cases hchk : checkRange doc.sprite op fromR place toR with
  | some res => simp [hchk]
  | none =>
    cases hc : celsCalls op fromR toR with
    | none => simp [hchk, hkind, hc]
    | some calls =>
      have hp := celsCalls_no_hazard op fromR toR hlayers hframes calls hc
      simp only [hchk, hkind, hc]
      rw [List.cons_append, List.pairwise_cons, List.pairwise_append]
      refine ⟨?_, hp, List.pairwise_singleton _ _, ?_⟩
      · intro b _ c hbegin
        simp [Call.dstCel] at hbegin
      · intro a _ b hb c _
        rw [List.mem_singleton] at hb
        subst hb
        simp [Call.srcCel]


/-- C16 at the move of the cels of layer 0, frames 0..2 onto frames 1..3, which overlap
the source: the frames are walked downwards. -/
theorem cels_transfer_no_hazard_witness :
    (drop_range_op sampleDecls sampleDoc Op.Move (Cels 0 0 0 2)
        DocumentRangePlace.kDocumentRangeBefore (Cels 0 0 1 3)).trace.Pairwise
        (fun a b => ∀ c, a.dstCel = some c → b.srcCel ≠ some c) ∧
      (drop_range_op sampleDecls sampleDoc Op.Move (Cels 0 0 0 2)
        DocumentRangePlace.kDocumentRangeBefore (Cels 0 0 1 3)).trace =
        [Call.begin "Move Range", Call.moveCel 0 2 0 3, Call.moveCel 0 1 0 2,
          Call.moveCel 0 0 0 1, Call.commit] :=
  ⟨cels_transfer_no_hazard sampleDecls sampleDoc Op.Move (Cels 0 0 0 2)
      DocumentRangePlace.kDocumentRangeBefore (Cels 0 0 1 3) rfl (by decide) (by decide),
    by decide⟩


/-! ## Frame sequences: moving and copying a block -/

theorem moveFrame_later {α : Type} (A M T : List α) (x : α) (s d : Int)
    (hs : s = A.length) (hd : d = A.length + 1 + M.length) :
    moveFrame (A ++ x :: (M ++ T)) s d = A ++ M ++ x :: T := by
  subst hs hd
  have hc : 0 ≤ (A.length : Int) ∧ (A.length : Int) < (A ++ x :: (M ++ T)).length ∧
      0 ≤ (A.length : Int) + 1 + M.length ∧
      (A.length : Int) + 1 + M.length ≤ (A ++ x :: (M ++ T)).length ∧
      (A.length : Int) ≠ A.length + 1 + M.length := by
    simp only [List.length_append, List.length_cons]
    push_cast
    omega
  have h1 : ((A.length : Int)).toNat = A.length := by omega
  have h2 : ((A.length : Int) + 1 + M.length).toNat - 1 = A.length + M.length := by omega
  have h3 : (A.length : Int) < A.length + 1 + M.length := by omega
  unfold moveFrame
  rw [if_pos hc, h1]
  have hget : (A ++ x :: (M ++ T))[A.length]? = some x := by
    rw [List.getElem?_append_right (le_refl _)]
    simp
  rw [hget]
  simp only [if_pos h3, h2]
  have hrest : List.take A.length (A ++ x :: (M ++ T)) ++
      List.drop (A.length + 1) (A ++ x :: (M ++ T)) = (A ++ M) ++ T := by
    rw [List.take_left' rfl]
    have : A ++ x :: (M ++ T) = (A ++ [x]) ++ (M ++ T) := by simp
    rw [this, List.drop_left' (by simp)]
    simp
  rw [hrest, List.take_left' (by simp), List.drop_left' (by simp)]

theorem moveFrame_earlier {α : Type} (A M T : List α) (x : α) (s d : Int)
    (hs : s = A.length + M.length) (hd : d = A.length) :
    moveFrame (A ++ M ++ x :: T) s d = A ++ x :: M ++ T := by
  subst hs hd
  by_cases hM : M = []
  · subst hM
    unfold moveFrame
    simp
  · have hMlen : 0 < M.length := List.length_pos.mpr hM
    have hc : 0 ≤ (A.length : Int) + M.length ∧
        (A.length : Int) + M.length < (A ++ M ++ x :: T).length ∧
        0 ≤ (A.length : Int) ∧
        (A.length : Int) ≤ (A ++ M ++ x :: T).length ∧
        (A.length : Int) + M.length ≠ A.length := by
      simp only [List.length_append, List.length_cons]
      push_cast
      omega
    have h1 : ((A.length : Int) + M.length).toNat = A.length + M.length := by omega
    have h2 : ((A.length : Int)).toNat = A.length := by omega
    have h3 : ¬ ((A.length : Int) + M.length < A.length) := by omega
    unfold moveFrame
    rw [if_pos hc, h1]
    have hget : (A ++ M ++ x :: T)[A.length + M.length]? = some x := by
      rw [List.getElem?_append_right (by simp)]
      simp
    rw [hget]
    simp only [if_neg h3, h2]
    have hrest : List.take (A.length + M.length) (A ++ M ++ x :: T) ++
        List.drop (A.length + M.length + 1) (A ++ M ++ x :: T) = A ++ (M ++ T) := by
      rw [List.take_left' (by simp)]
      have : A ++ M ++ x :: T = (A ++ M ++ [x]) ++ T := by simp
      rw [this, List.drop_left' (by simp [Nat.add_assoc])]
      simp
    rw [hrest, List.take_left' rfl, List.drop_left' rfl]
    simp

theorem copyFrame_insert {α : Type} (X Y : List α) (x : α) (s d : Int)
    (hs : 0 ≤ s) (hx : (X ++ Y)[s.toNat]? = some x) (hd : d = X.length) :
    copyFrame (X ++ Y) s d = X ++ x :: Y := by
  subst hd
  have hc : 0 ≤ s ∧ 0 ≤ (X.length : Int) ∧ (X.length : Int) ≤ (X ++ Y).length := by
    simp only [List.length_append]
    push_cast
    omega
  have h1 : ((X.length : Int)).toNat = X.length := by omega
  unfold copyFrame
  rw [if_pos hc, hx, h1]
  simp only []
  rw [List.take_left' rfl, List.drop_left' rfl]

theorem runFrames_append {α : Type} (c1 c2 : List Call) (frames : List α) :
    runFrames (c1 ++ c2) frames = runFrames c2 (runFrames c1 frames) := by
  unfold runFrames
  rw [List.foldl_append]

theorem runFrames_cons {α : Type} (c : Call) (cs : List Call) (frames : List α) :
    runFrames (c :: cs) frames = runFrames cs (c.onFrames frames) := rfl

/-- Moving a block towards the end, last frame first: the calls `moveFrame(src - j,
dst - j)` carry the block `S` over the frames `M` that follow it. -/
theorem run_move_block_later {α : Type} (S : List α) :
    ∀ (A M T : List α) (src dst : Int), src = A.length + S.length - 1 →
      dst = A.length + S.length + M.length →
      runFrames (unroll (fun a b => [Call.moveFrame a b]) (-1) (-1) S.length src dst)
        (A ++ S ++ M ++ T) = A ++ M ++ S ++ T := by
  induction S using List.reverseRecOn with
  | nil =>
    intro A M T src dst _ _
    simp [unroll, runFrames]
  | append_singleton S0 x ih =>
    intro A M T src dst hs hd
    rw [List.length_append, List.length_singleton, unroll, runFrames_append]
    have h1 : runFrames [Call.moveFrame src dst] (A ++ (S0 ++ [x]) ++ M ++ T) =
        (A ++ S0) ++ M ++ x :: T := by
      have : A ++ (S0 ++ [x]) ++ M ++ T = (A ++ S0) ++ x :: (M ++ T) := by simp
      rw [this]
      show moveFrame _ _ _ = _
      apply moveFrame_later
      · simp at hs ⊢; omega
      · simp at hd ⊢; omega
    rw [h1]
    have h2 := ih A M (x :: T) (src + -1) (dst + -1)
      (by simp at hs ⊢; omega) (by simp at hd ⊢; omega)
    simp only [List.append_assoc] at h2 ⊢
    rw [h2]
    simp

/-- Moving a block towards the beginning, first frame first: the calls
`moveFrame(src + j, dst + j)` carry the block `S` before the frames `M` that precede
it. -/
theorem run_move_block_earlier {α : Type} (S : List α) :
    ∀ (A M T : List α) (src dst : Int), src = A.length + M.length → dst = A.length →
      runFrames (unroll (fun a b => [Call.moveFrame a b]) 1 1 S.length src dst)
        (A ++ M ++ S ++ T) = A ++ S ++ M ++ T := by
  induction S with
  | nil =>
    intro A M T src dst _ _
    simp [unroll, runFrames]
  | cons x S1 ih =>
    intro A M T src dst hs hd
    rw [List.length_cons, unroll, runFrames_append]
    have h1 : runFrames [Call.moveFrame src dst] (A ++ M ++ (x :: S1) ++ T) =
        (A ++ [x]) ++ M ++ S1 ++ T := by
      have : A ++ M ++ (x :: S1) ++ T = A ++ M ++ x :: (S1 ++ T) := by simp
      rw [this]
      show moveFrame _ _ _ = _
      rw [moveFrame_earlier A M (S1 ++ T) x src dst hs hd]
      simp
    rw [h1, ih (A ++ [x]) M T (src + 1) (dst + 1) (by simp; omega) (by simp; omega)]
    simp

/-- Copying a block to an earlier insertion point, first frame first with source
step 2: the calls `copyFrame(src + 2j, dst + j)` insert a duplicate of `S` before
`M`. -/
theorem run_copy_block_earlier {α : Type} (S : List α) :
    ∀ (A M T : List α) (src dst : Int), src = A.length + M.length → dst = A.length →
      runFrames (unroll (fun a b => [Call.copyFrame a b]) 2 1 S.length src dst)
        (A ++ M ++ S ++ T) = A ++ S ++ M ++ S ++ T := by
  induction S with
  | nil =>
    intro A M T src dst _ _
    simp [unroll, runFrames]
  | cons x S1 ih =>
    intro A M T src dst hs hd
    rw [List.length_cons, unroll, runFrames_append]
    have h1 : runFrames [Call.copyFrame src dst] (A ++ M ++ (x :: S1) ++ T) =
        (A ++ [x]) ++ (M ++ [x]) ++ S1 ++ T := by
      have : A ++ M ++ (x :: S1) ++ T = A ++ (M ++ x :: (S1 ++ T)) := by simp
      rw [this]
      show copyFrame _ _ _ = _
      rw [copyFrame_insert A (M ++ x :: (S1 ++ T)) x src dst (by omega) ?_ hd]
      · simp
      · have : src.toNat = A.length + M.length := by omega
        rw [this, ← List.append_assoc, List.getElem?_append_right (by simp)]
        simp
    rw [h1, ih (A ++ [x]) (M ++ [x]) T (src + 2) (dst + 1) (by simp; omega) (by simp; omega)]
    simp

/-- Copying a block to a later insertion point, last frame first with the destination
fixed: the calls `copyFrame(src - j, dst)` insert a duplicate of `S` after `M`. -/
theorem run_copy_block_later {α : Type} (S : List α) :
    ∀ (A M T : List α) (src dst : Int), src = A.length + S.length - 1 →
      dst = A.length + S.length + M.length →
      runFrames (unroll (fun a b => [Call.copyFrame a b]) (-1) 0 S.length src dst)
        (A ++ S ++ M ++ T) = A ++ S ++ M ++ S ++ T := by
  induction S using List.reverseRecOn with
  | nil =>
    intro A M T src dst _ _
    simp [unroll, runFrames]
  | append_singleton S0 x ih =>
    intro A M T src dst hs hd
    rw [List.length_append, List.length_singleton, unroll, runFrames_append]
    have h1 : runFrames [Call.copyFrame src dst] (A ++ (S0 ++ [x]) ++ M ++ T) =
        A ++ S0 ++ (x :: M) ++ (x :: T) := by
      have : A ++ (S0 ++ [x]) ++ M ++ T = (A ++ S0 ++ [x] ++ M) ++ T := by simp
      rw [this]
      show copyFrame _ _ _ = _
      rw [copyFrame_insert (A ++ S0 ++ [x] ++ M) T x src dst (by simp at hs; omega) ?_
        (by simp at hd ⊢; omega)]
      · simp
      · have : src.toNat = A.length + S0.length := by simp at hs; omega
        rw [this]
        have : A ++ S0 ++ [x] ++ M ++ T = (A ++ S0) ++ x :: (M ++ T) := by simp
        rw [this, List.getElem?_append_right (by simp)]
        simp
    rw [h1, ih A (x :: M) (x :: T) (src + -1) (dst + 0)
      (by simp at hs ⊢; omega) (by simp at hd ⊢; omega)]
    simp


/-! ## Slices of a frame sequence -/

theorem slice_append_slice {α : Type} (frames : List α) (lo mid hi : Int)
    (h0 : 0 ≤ lo) (h1 : lo ≤ mid + 1) (h2 : mid ≤ hi) :
    slice frames lo mid ++ slice frames (mid + 1) hi = slice frames lo hi := by
  unfold slice
  have e1 : (mid + 1).toNat = lo.toNat + (mid + 1 - lo).toNat := by omega
  have e2 : (hi + 1 - lo).toNat = (mid + 1 - lo).toNat + (hi + 1 - (mid + 1)).toNat := by omega
  rw [e2, List.take_add, List.drop_drop, e1]

theorem slice_all {α : Type} (frames : List α) :
    slice frames 0 ((frames.length : Int) - 1) = frames := by
  unfold slice
  have : ((frames.length : Int) - 1 + 1 - 0).toNat = frames.length := by omega
  rw [this]
  simp

theorem slice_length {α : Type} (frames : List α) (lo hi : Int)
    (h0 : 0 ≤ lo) (h1 : lo ≤ hi + 1) (h2 : hi < frames.length) :
    ((slice frames lo hi).length : Int) = hi + 1 - lo := by
  unfold slice
  rw [List.length_take, List.length_drop]
  omega

theorem slice_mid {α : Type} (X S Y : List α) (lo hi : Int)
    (hlo : lo = X.length) (hhi : hi = (X.length : Int) + S.length - 1) :
    slice (X ++ S ++ Y) lo hi = S := by
  unfold slice
  have e1 : lo.toNat = X.length := by omega
  have e2 : (hi + 1 - lo).toNat = S.length := by omega
  rw [e1, e2, List.append_assoc, List.drop_left' rfl, List.take_left' rfl]

/-- A sequence splits at three cut points into four consecutive slices. -/
theorem slice_four {α : Type} (frames : List α) (a b c : Int)
    (h0 : 0 ≤ a) (h1 : a ≤ b) (h2 : b ≤ c) (h3 : c ≤ frames.length) :
    frames = slice frames 0 (a - 1) ++ slice frames a (b - 1) ++ slice frames b (c - 1) ++
      slice frames c ((frames.length : Int) - 1) := by
  have e1 := slice_append_slice frames 0 (a - 1) (b - 1) (le_refl _) (by omega) (by omega)
  have e2 := slice_append_slice frames 0 (b - 1) (c - 1) (le_refl _) (by omega) (by omega)
  have e3 := slice_append_slice frames 0 (c - 1) ((frames.length : Int) - 1) (le_refl _)
    (by omega) (by omega)
  simp only [sub_add_cancel] at e1 e2 e3
  rw [e1, e2, e3, slice_all]

theorem runFrames_transaction {α : Type} (label : String) (calls : List Call)
    (frames : List α) :
    runFrames (Call.begin label :: calls ++ [Call.commit]) frames = runFrames calls frames := by
  rw [List.cons_append, runFrames_cons, runFrames_append]
  rfl


/-! ## Frames moves and copies on the frame sequence -/

/-- The calls `moveFrame(fe - j, p - j)`, `j = 0 .. fe - fb`, take the frames `fb..fe`
out of the sequence and put them back, in their order, before the frame that was at
index `p`, for an insertion point `p` after the block. -/
theorem run_move_block_later_slices {α : Type} (frames : List α) (fb fe p : Int)
    (h0 : 0 ≤ fb) (h1 : fb ≤ fe) (h2 : fe + 1 ≤ p) (h3 : p ≤ frames.length) :
    runFrames (unroll (fun a b => [Call.moveFrame a b]) (-1) (-1) (fe + 1 - fb).toNat fe p)
        frames =
      slice frames 0 (fb - 1) ++ slice frames (fe + 1) (p - 1) ++ slice frames fb fe ++
        slice frames p ((frames.length : Int) - 1) := by
  have hd := slice_four frames fb (fe + 1) p h0 (by omega) (by omega) h3
  rw [add_sub_cancel_right] at hd
  have hA := slice_length frames 0 (fb - 1) (le_refl _) (by omega) (by omega)
  have hS := slice_length frames fb fe h0 (by omega) (by omega)
  have hM := slice_length frames (fe + 1) (p - 1) (by omega) (by omega) (by omega)
  generalize slice frames 0 (fb - 1) = A at hd hA ⊢
  generalize slice frames fb fe = S at hd hS ⊢
  generalize slice frames (fe + 1) (p - 1) = M at hd hM ⊢
  generalize slice frames p ((frames.length : Int) - 1) = T at hd ⊢
  have hn : (fe + 1 - fb).toNat = S.length := by omega
  rw [hn, hd]
  refine run_move_block_later _ _ _ _ _ _ ?_ ?_
  · omega
  · omega


/-- The calls `moveFrame(fb + j, p + j)`, `j = 0 .. fe - fb`, take the frames `fb..fe`
out of the sequence and put them back, in their order, before the frame that was at
index `p`, for an insertion point `p` before the block. -/
theorem run_move_block_earlier_slices {α : Type} (frames : List α) (fb fe p : Int)
    (h0 : 0 ≤ p) (h1 : p ≤ fb) (h2 : fb ≤ fe) (h3 : fe < frames.length) :
    runFrames (unroll (fun a b => [Call.moveFrame a b]) 1 1 (fe + 1 - fb).toNat fb p)
        frames =
      slice frames 0 (p - 1) ++ slice frames fb fe ++ slice frames p (fb - 1) ++
        slice frames (fe + 1) ((frames.length : Int) - 1) := by
  have hd := slice_four frames p fb (fe + 1) h0 h1 (by omega) (by omega)
  rw [add_sub_cancel_right] at hd
  have hA := slice_length frames 0 (p - 1) (le_refl _) (by omega) (by omega)
  have hM := slice_length frames p (fb - 1) h0 (by omega) (by omega)
  have hS := slice_length frames fb fe (by omega) (by omega) (by omega)
  generalize slice frames 0 (p - 1) = A at hd hA ⊢
  generalize slice frames p (fb - 1) = M at hd hM ⊢
  generalize slice frames fb fe = S at hd hS ⊢
  generalize slice frames (fe + 1) ((frames.length : Int) - 1) = T at hd ⊢
  have hn : (fe + 1 - fb).toNat = S.length := by omega
  rw [hn, hd]
  refine run_move_block_earlier _ _ _ _ _ _ ?_ ?_
  · omega
  · omega

/-- The calls `copyFrame(fb + 2j, p + j)`, `j = 0 .. fe - fb`, insert duplicates of the
frames `fb..fe`, in their order, before the frame that was at index `p`, for an
insertion point `p` before the block; nothing else changes. -/
theorem run_copy_block_earlier_slices {α : Type} (frames : List α) (fb fe p : Int)
    (h0 : 0 ≤ p) (h1 : p ≤ fb) (h2 : fb ≤ fe) (h3 : fe < frames.length) :
    runFrames (unroll (fun a b => [Call.copyFrame a b]) 2 1 (fe + 1 - fb).toNat fb p)
        frames =
      slice frames 0 (p - 1) ++ slice frames fb fe ++
        slice frames p ((frames.length : Int) - 1) := by
  have hd := slice_four frames p fb (fe + 1) h0 h1 (by omega) (by omega)
  rw [add_sub_cancel_right] at hd
  have hA := slice_length frames 0 (p - 1) (le_refl _) (by omega) (by omega)
  have hM := slice_length frames p (fb - 1) h0 (by omega) (by omega)
  have hS := slice_length frames fb fe (by omega) (by omega) (by omega)
  have e1 := slice_append_slice frames p (fb - 1) fe h0 (by omega) (by omega)
  have e2 := slice_append_slice frames p fe ((frames.length : Int) - 1) h0 (by omega) (by omega)
  rw [sub_add_cancel] at e1
  rw [← e2, ← e1]
  generalize slice frames 0 (p - 1) = A at hd hA ⊢
  generalize slice frames p (fb - 1) = M at hd hM ⊢
  generalize slice frames fb fe = S at hd hS ⊢
  generalize slice frames (fe + 1) ((frames.length : Int) - 1) = T at hd ⊢
  have hn : (fe + 1 - fb).toNat = S.length := by omega
  rw [hn, hd, run_copy_block_earlier S A M T fb p (by omega) (by omega)]
  simp

/-- The calls `copyFrame(fe - j, p)`, `j = 0 .. fe - fb`, insert duplicates of the
frames `fb..fe`, in their order, before the frame that was at index `p`, for an
insertion point `p` after the block; nothing else changes. -/
theorem run_copy_block_later_slices {α : Type} (frames : List α) (fb fe p : Int)
    (h0 : 0 ≤ fb) (h1 : fb ≤ fe) (h2 : fe + 1 ≤ p) (h3 : p ≤ frames.length) :
    runFrames (unroll (fun a b => [Call.copyFrame a b]) (-1) 0 (fe + 1 - fb).toNat fe p)
        frames =
      slice frames 0 (p - 1) ++ slice frames fb fe ++
        slice frames p ((frames.length : Int) - 1) := by
  have hd := slice_four frames fb (fe + 1) p h0 (by omega) (by omega) h3
  rw [add_sub_cancel_right] at hd
  have hA := slice_length frames 0 (fb - 1) (le_refl _) (by omega) (by omega)
  have hS := slice_length frames fb fe h0 (by omega) (by omega)
  have hM := slice_length frames (fe + 1) (p - 1) (by omega) (by omega) (by omega)
  have e1 := slice_append_slice frames 0 (fb - 1) fe (le_refl _) (by omega) (by omega)
  have e2 := slice_append_slice frames 0 fe (p - 1) (le_refl _) (by omega) (by omega)
  rw [sub_add_cancel] at e1
  rw [← e2, ← e1]
  generalize slice frames 0 (fb - 1) = A at hd hA ⊢
  generalize slice frames fb fe = S at hd hS ⊢
  generalize slice frames (fe + 1) (p - 1) = M at hd hM ⊢
  generalize slice frames p ((frames.length : Int) - 1) = T at hd ⊢
  have hn : (fe + 1 - fb).toNat = S.length := by omega
  rw [hn, hd, run_copy_block_later S A M T fe p (by omega) (by omega)]


theorem DocumentRange.frames_toNat_eq (r : DocumentRange) :
    r.frames.toNat = (r.frameEnd + 1 - r.frameBegin).toNat := by
  unfold DocumentRange.frames
  congr 1
  ring

/-- C11: a Frames-kind move whose source lies before its destination
(`0 <= from.frameBegin <= from.frameEnd < to.frameBegin <= to.frameEnd < N`, `N` the
number of frames) and that is not the adjacency no-op.  With `moveFrame(s, d)` removing
frame `s` and reinserting it before the frame that was at index `d`, the calls of the
trace turn the sequence into the original with the source block taken out and put back,
in its order, immediately before the original frame `to.frameBegin` (Before) or
immediately after the original frame `to.frameEnd` (After); the returned range has the
kind Frames and indexes exactly that block. -/
theorem move_frames_to_later_place (k : RangeDecls) (doc : Document) {α : Type}
    (frames : List α) (fromR toR : DocumentRange) (place : DocumentRangePlace)
    (hkind : fromR.type = RangeType.kFrames)
    (h0 : 0 ≤ fromR.frameBegin) (h1 : fromR.frameBegin ≤ fromR.frameEnd)
    (h2 : fromR.frameEnd < toR.frameBegin) (h3 : toR.frameBegin ≤ toR.frameEnd)
    (h4 : toR.frameEnd < frames.length)
    (hnoop : ¬ (place = DocumentRangePlace.kDocumentRangeBefore ∧
      toR.frameBegin = fromR.frameEnd + 1)) :
    (move_range k doc fromR toR place).result =
        Result.returned ⟨RangeType.kFrames, k.NoLayer, k.NoLayer,
          insertionPoint place toR - fromR.frames, insertionPoint place toR - 1⟩ ∧
      runFrames (move_range k doc fromR toR place).trace frames =
        slice frames 0 (fromR.frameBegin - 1) ++
          slice frames (fromR.frameEnd + 1) (insertionPoint place toR - 1) ++
          slice frames fromR.frameBegin fromR.frameEnd ++
          slice frames (insertionPoint place toR) ((frames.length : Int) - 1) ∧
      slice (runFrames (move_range k doc fromR toR place).trace frames)
          (insertionPoint place toR - fromR.frames) (insertionPoint place toR - 1) =
        slice frames fromR.frameBegin fromR.frameEnd := by
  have hP1 : fromR.frameEnd + 2 ≤ insertionPoint place toR := by
    cases place
    · simp only [insertionPoint]
      have : toR.frameBegin ≠ fromR.frameEnd + 1 := fun h => hnoop ⟨rfl, h⟩
      omega
    · simp only [insertionPoint]
      omega
  have hP2 : insertionPoint place toR ≤ frames.length := by
    cases place <;> simp only [insertionPoint] <;> omega
  have hchk : checkRange doc.sprite Op.Move fromR place toR = none := by
    rw [checkRange_frames_move _ _ _ _ hkind, if_neg]
    rintro (h | h | h)
    · omega
    · exact hnoop h
    · omega
  have hplan : framesPlan Op.Move fromR place toR =
      ⟨fromR.frameEnd, -1, fromR.frameBegin - 1, insertionPoint place toR, -1⟩ := by
    cases place
    · simp only [framesPlan, insertionPoint]
      rw [if_neg (by omega)]
    · simp only [framesPlan, insertionPoint]
      rw [if_neg (by omega)]
  have hcalls := framesCalls_eq Op.Move fromR place toR h1
  rw [hplan, fromR.frames_toNat_eq] at hcalls
  have hres : framesResult k Op.Move fromR place toR =
      ⟨RangeType.kFrames, k.NoLayer, k.NoLayer,
        insertionPoint place toR - fromR.frames, insertionPoint place toR - 1⟩ := by
    unfold framesResult
    have hlt : fromR.frameBegin < toR.frameBegin := by omega
    cases place <;>
      simp [hlt, hkind, insertionPoint, DocumentRange.displace, DocumentRange.startRange,
        DocumentRange.endRange] <;>
      constructor <;> ring
  have hout : move_range k doc fromR toR place =
      ⟨Call.begin (undoLabel Op.Move) ::
          unroll (fun a b => [Call.moveFrame a b]) (-1) (-1)
            (fromR.frameEnd + 1 - fromR.frameBegin).toNat
            fromR.frameEnd (insertionPoint place toR) ++ [Call.commit],
        Result.returned ⟨RangeType.kFrames, k.NoLayer, k.NoLayer,
          insertionPoint place toR - fromR.frames, insertionPoint place toR - 1⟩⟩ := by
    simp only [move_range, drop_range_op, hchk, hkind, hcalls, hres]
    rfl
  have hrun : runFrames (move_range k doc fromR toR place).trace frames =
      slice frames 0 (fromR.frameBegin - 1) ++
        slice frames (fromR.frameEnd + 1) (insertionPoint place toR - 1) ++
        slice frames fromR.frameBegin fromR.frameEnd ++
        slice frames (insertionPoint place toR) ((frames.length : Int) - 1) := by
    rw [hout]
    simp only []
    rw [runFrames_transaction]
    exact run_move_block_later_slices frames _ _ _ h0 h1 (by omega) hP2
  refine ⟨by rw [hout], hrun, ?_⟩
  rw [hrun]
  have hA := slice_length frames 0 (fromR.frameBegin - 1) (le_refl _) (by omega) (by omega)
  have hS := slice_length frames fromR.frameBegin fromR.frameEnd h0 (by omega) (by omega)
  have hM := slice_length frames (fromR.frameEnd + 1) (insertionPoint place toR - 1)
    (by omega) (by omega) (by omega)
  apply slice_mid
  · rw [List.length_append]
    push_cast
    unfold DocumentRange.frames
    omega
  · rw [List.length_append]
    push_cast
    omega


/-- C11 at the scenario of five frames `0..4`: frames 0..1 moved After frame 3 emit
`moveFrame(1, 4)` and `moveFrame(0, 3)`, give the order `2, 3, 0, 1, 4` and return
Frames[2,3]. -/
theorem move_frames_to_later_place_witness :
    (move_range sampleDecls sampleDoc (Frames 0 1) (Frames 3 3)
        DocumentRangePlace.kDocumentRangeAfter).trace =
        [Call.begin "Move Range", Call.moveFrame 1 4, Call.moveFrame 0 3, Call.commit] ∧
      (move_range sampleDecls sampleDoc (Frames 0 1) (Frames 3 3)
        DocumentRangePlace.kDocumentRangeAfter).result =
        Result.returned ⟨RangeType.kFrames, -1, -1, 2, 3⟩ ∧
      runFrames (move_range sampleDecls sampleDoc (Frames 0 1) (Frames 3 3)
        DocumentRangePlace.kDocumentRangeAfter).trace [0, 1, 2, 3, 4] = [2, 3, 0, 1, 4] ∧
      slice (runFrames (move_range sampleDecls sampleDoc (Frames 0 1) (Frames 3 3)
        DocumentRangePlace.kDocumentRangeAfter).trace [0, 1, 2, 3, 4]) 2 3 = [0, 1] :=
  have h := move_frames_to_later_place sampleDecls sampleDoc [0, 1, 2, 3, 4] (Frames 0 1)
    (Frames 3 3) DocumentRangePlace.kDocumentRangeAfter rfl (by decide) (by decide)
    (by decide) (by decide) (by decide) (by decide)
  ⟨by decide, h.1.trans (by decide), h.2.1.trans (by decide), h.2.2.trans (by decide)⟩

/-- A Frames-kind move Before a destination that lies before the source: the source
block is put back immediately before the original frame `to.frameBegin`, where the
returned range points. -/
theorem move_frames_before_earlier_place (k : RangeDecls) (doc : Document) {α : Type}
    (frames : List α) (fromR toR : DocumentRange)
    (hkind : fromR.type = RangeType.kFrames)
    (h0 : 0 ≤ toR.frameBegin) (h1 : toR.frameBegin ≤ toR.frameEnd)
    (h2 : toR.frameEnd < fromR.frameBegin) (h3 : fromR.frameBegin ≤ fromR.frameEnd)
    (h4 : fromR.frameEnd < frames.length) :
    (move_range k doc fromR toR DocumentRangePlace.kDocumentRangeBefore).result =
        Result.returned ⟨RangeType.kFrames, k.NoLayer, k.NoLayer,
          toR.frameBegin, toR.frameBegin + fromR.frames - 1⟩ ∧
      runFrames (move_range k doc fromR toR DocumentRangePlace.kDocumentRangeBefore).trace
          frames =
        slice frames 0 (toR.frameBegin - 1) ++ slice frames fromR.frameBegin fromR.frameEnd ++
          slice frames toR.frameBegin (fromR.frameBegin - 1) ++
          slice frames (fromR.frameEnd + 1) ((frames.length : Int) - 1) := by
  have hchk : checkRange doc.sprite Op.Move fromR DocumentRangePlace.kDocumentRangeBefore toR =
      none := by
    rw [checkRange_frames_move _ _ _ _ hkind, if_neg]
    rintro (h | h | h)
    · omega
    · omega
    · exact absurd h.1 (by decide)
  have hplan : framesPlan Op.Move fromR DocumentRangePlace.kDocumentRangeBefore toR =
      ⟨fromR.frameBegin, 1, fromR.frameEnd + 1, toR.frameBegin, 1⟩ := by
    simp only [framesPlan]
    rw [if_pos (by omega)]
  have hcalls := framesCalls_eq Op.Move fromR DocumentRangePlace.kDocumentRangeBefore toR h3
  rw [hplan, fromR.frames_toNat_eq] at hcalls
  have hres : framesResult k Op.Move fromR DocumentRangePlace.kDocumentRangeBefore toR =
      ⟨RangeType.kFrames, k.NoLayer, k.NoLayer,
        toR.frameBegin, toR.frameBegin + fromR.frames - 1⟩ := by
    unfold framesResult
    have hlt : ¬ fromR.frameBegin < toR.frameBegin := by omega
    simp [hlt, hkind, DocumentRange.startRange, DocumentRange.endRange]
  constructor
  · simp only [move_range, drop_range_op, hchk, hkind, hcalls, hres]
  · simp only [move_range, drop_range_op, hchk, hkind, hcalls]
    rw [runFrames_transaction]
    exact run_move_block_earlier_slices frames _ _ _ h0 (by omega) h3 h4

/-- A Frames-kind move After a destination that lies before the source and is not
adjacent to it: the returned range begins at `to.frameEnd+1`, but the source block is
put back immediately before the original frame `to.frameEnd`, one index lower. -/
theorem move_frames_after_earlier_place (k : RangeDecls) (doc : Document) {α : Type}
    (frames : List α) (fromR toR : DocumentRange)
    (hkind : fromR.type = RangeType.kFrames)
    (h0 : 0 ≤ toR.frameBegin) (h1 : toR.frameBegin ≤ toR.frameEnd)
    (h2 : toR.frameEnd < fromR.frameBegin - 1) (h3 : fromR.frameBegin ≤ fromR.frameEnd)
    (h4 : fromR.frameEnd < frames.length) :
    (move_range k doc fromR toR DocumentRangePlace.kDocumentRangeAfter).result =
        Result.returned ⟨RangeType.kFrames, k.NoLayer, k.NoLayer,
          toR.frameEnd + 1, toR.frameEnd + fromR.frames⟩ ∧
      runFrames (move_range k doc fromR toR DocumentRangePlace.kDocumentRangeAfter).trace
          frames =
        slice frames 0 (toR.frameEnd - 1) ++ slice frames fromR.frameBegin fromR.frameEnd ++
          slice frames toR.frameEnd (fromR.frameBegin - 1) ++
          slice frames (fromR.frameEnd + 1) ((frames.length : Int) - 1) := by
  have hchk : checkRange doc.sprite Op.Move fromR DocumentRangePlace.kDocumentRangeAfter toR =
      none := by
    rw [checkRange_frames_move _ _ _ _ hkind, if_neg]
    rintro (h | h | h)
    · omega
    · exact absurd h.1 (by decide)
    · omega
  have hplan : framesPlan Op.Move fromR DocumentRangePlace.kDocumentRangeAfter toR =
      ⟨fromR.frameBegin, 1, fromR.frameEnd + 1, toR.frameEnd, 1⟩ := by
    simp only [framesPlan]
    rw [if_pos (by omega)]
  have hcalls := framesCalls_eq Op.Move fromR DocumentRangePlace.kDocumentRangeAfter toR h3
  rw [hplan, fromR.frames_toNat_eq] at hcalls
  have hres : framesResult k Op.Move fromR DocumentRangePlace.kDocumentRangeAfter toR =
      ⟨RangeType.kFrames, k.NoLayer, k.NoLayer,
        toR.frameEnd + 1, toR.frameEnd + fromR.frames⟩ := by
    unfold framesResult
    have hlt : ¬ fromR.frameBegin < toR.frameBegin := by omega
    simp [hlt, hkind, DocumentRange.startRange, DocumentRange.endRange]
    ring
  constructor
  · simp only [move_range, drop_range_op, hchk, hkind, hcalls, hres]
  · simp only [move_range, drop_range_op, hchk, hkind, hcalls]
    rw [runFrames_transaction]
    exact run_move_block_earlier_slices frames _ _ _ (by omega) (by omega) h3 h4

/-- C12, the code at a move After a destination that lies before the source: of five
frames `0..4`, frames 3..4 moved After frame 1 emit `moveFrame(3, 1)` and
`moveFrame(4, 2)`, whose first destination is `to.frameEnd` and not `to.frameEnd+1`; the
block lands before the original frame 1 (order `0, 3, 4, 1, 2`), while the returned
range Frames[2,3] indexes the frames `4, 1`. -/
theorem move_frames_after_earlier_place_misplaced :
    (move_range sampleDecls sampleDoc (Frames 3 4) (Frames 1 1)
        DocumentRangePlace.kDocumentRangeAfter) =
        ⟨[Call.begin "Move Range", Call.moveFrame 3 1, Call.moveFrame 4 2, Call.commit],
          Result.returned ⟨RangeType.kFrames, -1, -1, 2, 3⟩⟩ ∧
      runFrames (move_range sampleDecls sampleDoc (Frames 3 4) (Frames 1 1)
        DocumentRangePlace.kDocumentRangeAfter).trace [0, 1, 2, 3, 4] = [0, 3, 4, 1, 2] ∧
      slice (runFrames (move_range sampleDecls sampleDoc (Frames 3 4) (Frames 1 1)
        DocumentRangePlace.kDocumentRangeAfter).trace [0, 1, 2, 3, 4]) 2 3 = [4, 1] ∧
      slice [0, 1, 2, 3, 4] (Frames 3 4).frameBegin (Frames 3 4).frameEnd = [3, 4] := by
  decide


theorem slice_prefix {α : Type} (X Y : List α) (hi : Int) (hhi : hi = (X.length : Int) - 1) :
    slice (X ++ Y) 0 hi = X := by
  unfold slice
  have e : (hi + 1 - 0).toNat = X.length := by omega
  rw [e]
  simp

theorem slice_suffix {α : Type} (X Y : List α) (lo hi : Int) (hlo : lo = X.length)
    (hhi : hi = (X.length : Int) + Y.length - 1) :
    slice (X ++ Y) lo hi = Y := by
  unfold slice
  have e1 : lo.toNat = X.length := by omega
  have e2 : (hi + 1 - lo).toNat = Y.length := by omega
  rw [e1, e2, List.drop_left' rfl]
  simp

/-- C13: a Frames-kind copy whose source and destination lie inside the sequence and do
not overlap, either placement.  With `copyFrame(s, d)` inserting at index `d` a duplicate
of the frame at index `s`, the calls of the trace insert duplicates of the source frames
`from.frameBegin..from.frameEnd`, in that order, immediately before the original frame
`to.frameBegin` (Before) or immediately after the original frame `to.frameEnd` (After)
and change nothing else: deleting the frames at the indices of the returned range gives
back the original sequence, and the frames at those indices are the duplicates. -/
theorem copy_frames_inserts_block (k : RangeDecls) (doc : Document) {α : Type}
    (frames : List α) (fromR toR : DocumentRange) (place : DocumentRangePlace)
    (hkind : fromR.type = RangeType.kFrames)
    (hf0 : 0 ≤ fromR.frameBegin) (hf1 : fromR.frameBegin ≤ fromR.frameEnd)
    (hf2 : fromR.frameEnd < frames.length)
    (ht0 : 0 ≤ toR.frameBegin) (ht1 : toR.frameBegin ≤ toR.frameEnd)
    (ht2 : toR.frameEnd < frames.length)
    (hapart : fromR.frameEnd < toR.frameBegin ∨ toR.frameEnd < fromR.frameBegin) :
    (copy_range k doc fromR toR place).result =
        Result.returned ⟨RangeType.kFrames, k.NoLayer, k.NoLayer,
          insertionPoint place toR, insertionPoint place toR + fromR.frames - 1⟩ ∧
      runFrames (copy_range k doc fromR toR place).trace frames =
        slice frames 0 (insertionPoint place toR - 1) ++
          slice frames fromR.frameBegin fromR.frameEnd ++
          slice frames (insertionPoint place toR) ((frames.length : Int) - 1) ∧
      slice (runFrames (copy_range k doc fromR toR place).trace frames) 0
            (insertionPoint place toR - 1) ++
          slice (runFrames (copy_range k doc fromR toR place).trace frames)
            (insertionPoint place toR + fromR.frames)
            ((frames.length : Int) + fromR.frames - 1) = frames ∧
      slice (runFrames (copy_range k doc fromR toR place).trace frames)
          (insertionPoint place toR) (insertionPoint place toR + fromR.frames - 1) =
        slice frames fromR.frameBegin fromR.frameEnd := by
  have hP0 : 0 ≤ insertionPoint place toR := by
    cases place <;> simp only [insertionPoint] <;> omega
  have hP2 : insertionPoint place toR ≤ frames.length := by
    cases place <;> simp only [insertionPoint] <;> omega
  have hchk : checkRange doc.sprite Op.Copy fromR place toR = none :=
    checkRange_copy _ _ _ _ (by rw [hkind]; decide)
  have hres : framesResult k Op.Copy fromR place toR =
      ⟨RangeType.kFrames, k.NoLayer, k.NoLayer,
        insertionPoint place toR, insertionPoint place toR + fromR.frames - 1⟩ := by
    unfold framesResult
    cases place <;>
      simp [hkind, insertionPoint, DocumentRange.startRange, DocumentRange.endRange]
  have hcalls := framesCalls_eq Op.Copy fromR place toR hf1
  rw [fromR.frames_toNat_eq] at hcalls
  have hrun : runFrames (copy_range k doc fromR toR place).trace frames =
      slice frames 0 (insertionPoint place toR - 1) ++
        slice frames fromR.frameBegin fromR.frameEnd ++
        slice frames (insertionPoint place toR) ((frames.length : Int) - 1) := by
    simp only [copy_range, drop_range_op, hchk, hkind, hcalls]
    rw [runFrames_transaction]
    rcases hapart with hap | hap
    · have hplan : framesPlan Op.Copy fromR place toR =
          ⟨fromR.frameEnd, -1, fromR.frameBegin - 1, insertionPoint place toR, 0⟩ := by
        cases place
        · simp only [framesPlan, insertionPoint]
          rw [if_neg (by omega)]
        · simp only [framesPlan, insertionPoint]
          rw [if_neg (by omega)]
      rw [hplan]
      have hP1 : fromR.frameEnd + 1 ≤ insertionPoint place toR := by
        cases place <;> simp only [insertionPoint] <;> omega
      exact run_copy_block_later_slices frames _ _ _ hf0 hf1 hP1 hP2
    · have hplan : framesPlan Op.Copy fromR place toR =
          ⟨fromR.frameBegin, 2, fromR.frameBegin + 2 * fromR.frames,
            insertionPoint place toR, 1⟩ := by
        cases place
        · simp only [framesPlan, insertionPoint]
          rw [if_pos (by omega)]
        · simp only [framesPlan, insertionPoint]
          rw [if_pos (by omega)]
      rw [hplan]
      have hP1 : insertionPoint place toR ≤ fromR.frameBegin := by
        cases place <;> simp only [insertionPoint] <;> omega
      exact run_copy_block_earlier_slices frames _ _ _ hP0 hP1 hf1 hf2
  have hX := slice_length frames 0 (insertionPoint place toR - 1) (le_refl _) (by omega)
    (by omega)
  have hS := slice_length frames fromR.frameBegin fromR.frameEnd hf0 (by omega) hf2
  have hY := slice_length frames (insertionPoint place toR) ((frames.length : Int) - 1)
    hP0 (by omega) (by omega)
  have hall := slice_append_slice frames 0 (insertionPoint place toR - 1)
    ((frames.length : Int) - 1) (le_refl _) (by omega) (by omega)
  rw [sub_add_cancel, slice_all] at hall
  refine ⟨?_, hrun, ?_, ?_⟩
  · simp only [copy_range, drop_range_op, hchk, hkind, hcalls, hres]
  · rw [hrun, List.append_assoc, slice_prefix _ _ _ (by omega)]
    rw [← List.append_assoc, slice_suffix _ _ _ _ ?_ ?_]
    · exact hall
    · rw [List.length_append]
      push_cast
      unfold DocumentRange.frames
      omega
    · rw [List.length_append]
      push_cast
      unfold DocumentRange.frames
      omega
  · rw [hrun]
    apply slice_mid
    · omega
    · unfold DocumentRange.frames
      omega

/-- C13 at five frames `0..4`: frames 3..4 copied Before frame 1 (source step 2), and
frames 0..1 copied After frame 3 (destination fixed). -/
theorem copy_frames_inserts_block_witness :
    runFrames (copy_range sampleDecls sampleDoc (Frames 3 4) (Frames 1 1)
        DocumentRangePlace.kDocumentRangeBefore).trace [0, 1, 2, 3, 4] =
        [0, 3, 4, 1, 2, 3, 4] ∧
      (copy_range sampleDecls sampleDoc (Frames 3 4) (Frames 1 1)
        DocumentRangePlace.kDocumentRangeBefore) =
        ⟨[Call.begin "Copy Range", Call.copyFrame 3 1, Call.copyFrame 5 2, Call.commit],
          Result.returned ⟨RangeType.kFrames, -1, -1, 1, 2⟩⟩ ∧
      runFrames (copy_range sampleDecls sampleDoc (Frames 0 1) (Frames 3 3)
        DocumentRangePlace.kDocumentRangeAfter).trace [0, 1, 2, 3, 4] =
        [0, 1, 2, 3, 0, 1, 4] :=
  ⟨(copy_frames_inserts_block sampleDecls sampleDoc [0, 1, 2, 3, 4] (Frames 3 4) (Frames 1 1)
      DocumentRangePlace.kDocumentRangeBefore rfl (by decide) (by decide) (by decide)
      (by decide) (by decide) (by decide) (by decide)).2.1.trans (by decide),
    by decide,
    (copy_frames_inserts_block sampleDecls sampleDoc [0, 1, 2, 3, 4] (Frames 0 1) (Frames 3 3)
      DocumentRangePlace.kDocumentRangeAfter rfl (by decide) (by decide) (by decide)
      (by decide) (by decide) (by decide) (by decide)).2.1.trans (by decide)⟩


/-! ## Reversal of a Frames range by moves -/

theorem indexRange_snoc (lo hi : Int) (h : lo ≤ hi) :
    indexRange lo hi = indexRange lo (hi - 1) ++ [hi] := by
  unfold indexRange
  have e : (hi + 1 - lo).toNat = (hi - 1 + 1 - lo).toNat + 1 := by omega
  rw [e, List.range_succ, List.map_append]
  congr 1
  simp only [List.map_cons, List.map_nil]
  congr 1
  omega

theorem reverseMoves_empty (frameBegin frameEnd : Int) (h : frameEnd < frameBegin) :
    reverseMoves frameBegin frameEnd = [] := by
  unfold reverseMoves
  rw [indexRange_nil _ _ (by omega)]
  rfl

theorem reverseMoves_step (frameBegin frameEnd : Int) (h : frameBegin ≤ frameEnd) :
    reverseMoves frameBegin frameEnd =
      Call.moveFrame frameBegin (frameEnd + 1) :: reverseMoves frameBegin (frameEnd - 1) := by
  unfold reverseMoves
  rw [indexRange_snoc _ _ (by omega), List.reverse_append]
  simp

theorem reverseMoves_length (frameBegin frameEnd : Int) :
    (reverseMoves frameBegin frameEnd).length = (frameEnd + 1 - frameBegin).toNat := by
  unfold reverseMoves indexRange
  rw [List.length_map, List.length_reverse, List.length_map, List.length_range]
  congr 1
  ring

/-- The moves of `reverse_frames` reverse the block `S` in place. -/
theorem run_reverse_moves {α : Type} (S : List α) :
    ∀ (A T : List α) (fb fe : Int), fb = A.length → fe = (A.length : Int) + S.length - 1 →
      runFrames (reverseMoves fb fe) (A ++ S ++ T) = A ++ S.reverse ++ T := by
  induction S with
  | nil =>
    intro A T fb fe _ hfe
    rw [reverseMoves_empty _ _ (by simp at hfe; omega)]
    simp [runFrames]
  | cons x S1 ih =>
    intro A T fb fe hfb hfe
    rw [List.length_cons] at hfe
    rw [reverseMoves_step _ _ (by push_cast at hfe; omega), runFrames_cons]
    have h1 : (Call.moveFrame fb (fe + 1)).onFrames (A ++ (x :: S1) ++ T) =
        A ++ S1 ++ x :: T := by
      have : A ++ (x :: S1) ++ T = A ++ x :: (S1 ++ T) := by simp
      rw [this]
      show moveFrame _ _ _ = _
      exact moveFrame_later A S1 T x fb (fe + 1) hfb (by push_cast at hfe; omega)
    rw [h1, ih A (x :: T) fb (fe - 1) hfb (by push_cast at hfe; omega)]
    simp

theorem run_reverse_moves_slices {α : Type} (frames : List α) (fb fe : Int)
    (h0 : 0 ≤ fb) (h1 : fb ≤ fe) (h2 : fe < frames.length) :
    runFrames (reverseMoves fb fe) frames =
      slice frames 0 (fb - 1) ++ (slice frames fb fe).reverse ++
        slice frames (fe + 1) ((frames.length : Int) - 1) := by
  have hd := slice_four frames fb (fe + 1) (fe + 1) h0 (by omega) (le_refl _) (by omega)
  rw [add_sub_cancel_right] at hd
  have hA := slice_length frames 0 (fb - 1) (le_refl _) (by omega) (by omega)
  have hS := slice_length frames fb fe h0 (by omega) (by omega)
  have hM : slice frames (fe + 1) fe = [] := by
    unfold slice
    have : (fe + 1 - (fe + 1)).toNat = 0 := by omega
    rw [this]
    rfl
  rw [hM, List.append_nil] at hd
  generalize slice frames 0 (fb - 1) = A at hd hA ⊢
  generalize slice frames fb fe = S at hd hS ⊢
  generalize slice frames (fe + 1) ((frames.length : Int) - 1) = T at hd ⊢
  rw [hd]
  refine run_reverse_moves S A T fb fe ?_ ?_
  · omega
  · omega


/-- Reversing the middle block of a sequence mirrors the indices of the block and keeps
every other index. -/
theorem getElem?_reverse_mid {α : Type} (A S T : List α) (i : Nat) :
    (A.length ≤ i → i < A.length + S.length →
        (A ++ S.reverse ++ T)[i]? = (A ++ S ++ T)[A.length + (A.length + S.length - 1 - i)]?) ∧
      (i < A.length ∨ A.length + S.length ≤ i →
        (A ++ S.reverse ++ T)[i]? = (A ++ S ++ T)[i]?) := by
  constructor
  · intro h1 h2
    have e1 : (A ++ S.reverse ++ T)[i]? = S.reverse[i - A.length]? := by
      rw [List.append_assoc, List.getElem?_append_right h1,
        List.getElem?_append_left (by rw [List.length_reverse]; omega)]
    have e2 : (A ++ S ++ T)[A.length + (A.length + S.length - 1 - i)]? =
        S[A.length + S.length - 1 - i]? := by
      rw [List.append_assoc, List.getElem?_append_right (by omega),
        List.getElem?_append_left (by omega)]
      congr 1
      omega
    rw [e1, e2, List.getElem?_reverse (by omega)]
    congr 1
    omega
  · intro h
    rcases h with h | h
    · rw [List.append_assoc, List.append_assoc, List.getElem?_append_left h,
        List.getElem?_append_left h]
    · rw [List.getElem?_append_right (by simp; omega),
        List.getElem?_append_right (by simp; omega)]
      simp

/-- C19: reversal of a Frames-kind range by moves.  For `0 <= frameBegin <= frameEnd <
N`, `reverse_frames` makes, inside its transaction, exactly `R.frames()` calls
`moveFrame(frameBegin, r)` for `r = frameEnd+1` down to `frameBegin+1`; with
`moveFrame(s, d)` removing frame `s` and reinserting it before the frame that was at
index `d`, afterwards the frame at each index `i` of `[frameBegin, frameEnd]` is the
original frame at index `frameBegin + frameEnd - i`, and the frame at every other index
is unchanged. -/
theorem reverse_frames_by_moves (doc : Document) {α : Type} (frames : List α)
    (range : DocumentRange) (hkind : range.type = RangeType.kFrames)
    (h0 : 0 ≤ range.frameBegin) (h1 : range.frameBegin ≤ range.frameEnd)
    (h2 : range.frameEnd < frames.length) :
    reverse_frames doc range =
        some (Call.begin "Reverse Frames" ::
          (indexRange (range.frameBegin + 1) (range.frameEnd + 1)).reverse.map
            (fun r => Call.moveFrame range.frameBegin r) ++ [Call.commit]) ∧
      (((indexRange (range.frameBegin + 1) (range.frameEnd + 1)).reverse.map
          (fun r => Call.moveFrame range.frameBegin r)).length : Int) = range.frames ∧
      ∀ calls, reverse_frames doc range = some calls → ∀ i : Nat,
        (range.frameBegin ≤ i → (i : Int) ≤ range.frameEnd →
            (runFrames calls frames)[i]? =
              frames[(range.frameBegin + range.frameEnd - i).toNat]?) ∧
          ((i : Int) < range.frameBegin ∨ range.frameEnd < i →
            (runFrames calls frames)[i]? = frames[i]?) := by
  have htrace : reverse_frames doc range =
      some (Call.begin "Reverse Frames" ::
        reverseMoves range.frameBegin range.frameEnd ++ [Call.commit]) := by
    simp [reverse_frames, reverseSpan, hkind]
  refine ⟨htrace, ?_, ?_⟩
  · have := reverseMoves_length range.frameBegin range.frameEnd
    unfold reverseMoves at this
    rw [this]
    unfold DocumentRange.frames
    omega
  · intro calls hcalls i
    rw [htrace] at hcalls
    cases hcalls
    rw [runFrames_transaction, run_reverse_moves_slices frames _ _ h0 h1 h2]
    have hd := slice_four frames range.frameBegin (range.frameEnd + 1) (range.frameEnd + 1)
      h0 (by omega) (le_refl _) (by omega)
    rw [add_sub_cancel_right] at hd
    have hA := slice_length frames 0 (range.frameBegin - 1) (le_refl _) (by omega) (by omega)
    have hS := slice_length frames range.frameBegin range.frameEnd h0 (by omega) (by omega)
    have hM : slice frames (range.frameEnd + 1) range.frameEnd = [] := by
      unfold slice
      have : (range.frameEnd + 1 - (range.frameEnd + 1)).toNat = 0 := by omega
      rw [this]
      rfl
    rw [hM, List.append_nil] at hd
    generalize slice frames 0 (range.frameBegin - 1) = A at hd hA ⊢
    generalize slice frames range.frameBegin range.frameEnd = S at hd hS ⊢
    generalize slice frames (range.frameEnd + 1) ((frames.length : Int) - 1) = T at hd ⊢
    have hmid := getElem?_reverse_mid A S T i
    rw [hd]
    constructor
    · intro hi1 hi2
      rw [hmid.1 (by omega) (by omega)]
      congr 1
      omega
    · intro hi
      exact hmid.2 (by omega)

/-- C19 at five frames `0..4` and the range Frames[1,3]: three moves of frame 1, giving
the order `0, 3, 2, 1, 4`. -/
theorem reverse_frames_by_moves_witness :
    reverse_frames sampleDoc (Frames 1 3) =
        some [Call.begin "Reverse Frames", Call.moveFrame 1 4, Call.moveFrame 1 3,
          Call.moveFrame 1 2, Call.commit] ∧
      runFrames [Call.begin "Reverse Frames", Call.moveFrame 1 4, Call.moveFrame 1 3,
          Call.moveFrame 1 2, Call.commit] [0, 1, 2, 3, 4] = [0, 3, 2, 1, 4] :=
  ⟨(reverse_frames_by_moves sampleDoc [0, 1, 2, 3, 4] (Frames 1 3) rfl (by decide)
      (by decide) (by decide)).1.trans (by decide),
    by decide⟩


/-! ## Reversal by swaps on the grid -/

theorem runGrid_append {α : Type} (c1 c2 : List Call) (n : Nat) (g : Grid α) :
    runGrid (c1 ++ c2) n g = runGrid c2 n (runGrid c1 n g) := by
  unfold runGrid
  rw [List.foldl_append]

theorem runGrid_cons {α : Type} (c : Call) (cs : List Call) (n : Nat) (g : Grid α) :
    runGrid (c :: cs) n g = runGrid cs n (c.onGrid n g) := rfl

theorem runGrid_transaction {α : Type} (label : String) (calls : List Call) (n : Nat)
    (g : Grid α) :
    runGrid (Call.begin label :: calls ++ [Call.commit]) n g = runGrid calls n g := by
  rw [List.cons_append, runGrid_cons, runGrid_append]
  rfl

/-- The swap loop of one layer ends after `(frameBegin+frameEnd)/2 + 1 - frameBegin`
passes. -/
theorem swapLoop_eq (frameBegin frameEnd layerIdx : Int) (h0 : 0 ≤ frameBegin)
    (h1 : frameBegin ≤ frameEnd) :
    swapLoop frameBegin frameEnd layerIdx =
      some (unroll (fun frame frameRev => [Call.swapCel layerIdx frame frameRev]) 1 (-1)
        ((frameBegin + frameEnd) / 2 + 1 - frameBegin).toNat frameBegin frameEnd) := by
  unfold swapLoop
  have hdiv : Int.tdiv (frameBegin + frameEnd) 2 = (frameBegin + frameEnd) / 2 :=
    Int.tdiv_eq_ediv (by omega) (by omega)
  rw [hdiv]
  refine Plan.run_eq_unroll _ _ _ (fun _ _ => rfl) _ (by simp) ?_
  simp only []
  rw [Int.toNat_of_nonneg (by omega)]
  ring

/-- The swaps `(a, b), (a+1, b-1), ...` of one layer, `m` of them, mirror the first `m`
and the last `m` frames of the span `a..b` of that layer. -/
theorem runGrid_swaps {α : Type} (n : Nat) (layer : Int) :
    ∀ (m : Nat) (a b : Int) (g : Grid α), a + 2 * m ≤ b + 2 →
      runGrid (unroll (fun frame frameRev => [Call.swapCel layer frame frameRev]) 1 (-1) m a b)
          n g =
        fun l f =>
          if l = layer ∧ ((a ≤ f ∧ f < a + m) ∨ (b - m < f ∧ f ≤ b)) then g l (a + b - f)
          else g l f := by
  intro m
  induction m with
  | zero =>
    intro a b g _
    funext l f
    have : ¬ (l = layer ∧ ((a ≤ f ∧ f < a + (0 : Nat)) ∨ (b - (0 : Nat) < f ∧ f ≤ b))) := by
      omega
    rw [if_neg this]
    rfl
  | succ m ih =>
    intro a b g hab
    rw [unroll, runGrid_append, ih (a + 1) (b + -1) _ (by push_cast at hab ⊢; omega)]
    funext l f
    show (if l = layer ∧ ((a + 1 ≤ f ∧ f < a + 1 + m) ∨ (b + -1 - m < f ∧ f ≤ b + -1)) then
        (g.swapCel layer a b) l (a + 1 + (b + -1) - f)
      else (g.swapCel layer a b) l f) = _
    simp only [Grid.swapCel]
    push_cast at hab ⊢
    split_ifs <;> first
      | rfl
      | (exfalso; omega)
      | (congr 1; omega)


/-- The swaps of one layer over the whole span `frameBegin..frameEnd` reverse the cels
of that layer within the span. -/
theorem runGrid_swapLoop {α : Type} (n : Nat) (layer frameBegin frameEnd : Int)
    (g : Grid α) (h1 : frameBegin ≤ frameEnd) :
    runGrid (unroll (fun frame frameRev => [Call.swapCel layer frame frameRev]) 1 (-1)
        ((frameBegin + frameEnd) / 2 + 1 - frameBegin).toNat frameBegin frameEnd) n g =
      fun l f =>
        if l = layer ∧ (frameBegin ≤ f ∧ f ≤ frameEnd) then g l (frameBegin + frameEnd - f)
        else g l f := by
  rw [runGrid_swaps n layer _ frameBegin frameEnd g (by omega)]
  funext l f
  have hm : (((frameBegin + frameEnd) / 2 + 1 - frameBegin).toNat : Int) =
      (frameBegin + frameEnd) / 2 + 1 - frameBegin := Int.toNat_of_nonneg (by omega)
  rw [hm]
  split_ifs <;> first
    | rfl
    | (exfalso; omega)

/-- The outer loop over `count` layers from `layerBegin` reverses, within the frame
span, the cels of each of these layers. -/
theorem runGrid_layers {α : Type} (n : Nat) (frameBegin frameEnd : Int)
    (h1 : frameBegin ≤ frameEnd) :
    ∀ (count : Nat) (layerBegin d : Int) (g : Grid α),
      runGrid (unroll (fun layerIdx _ =>
          unroll (fun frame frameRev => [Call.swapCel layerIdx frame frameRev]) 1 (-1)
            ((frameBegin + frameEnd) / 2 + 1 - frameBegin).toNat frameBegin frameEnd)
          1 0 count layerBegin d) n g =
        fun l f =>
          if (layerBegin ≤ l ∧ l < layerBegin + count) ∧ (frameBegin ≤ f ∧ f ≤ frameEnd) then
            g l (frameBegin + frameEnd - f)
          else g l f := by
  intro count
  induction count with
  | zero =>
    intro layerBegin d g
    funext l f
    have : ¬ ((layerBegin ≤ l ∧ l < layerBegin + (0 : Nat)) ∧
        (frameBegin ≤ f ∧ f ≤ frameEnd)) := by omega
    rw [if_neg this]
    rfl
  | succ count ih =>
    intro layerBegin d g
    rw [unroll, runGrid_append, runGrid_swapLoop n layerBegin frameBegin frameEnd g h1, ih]
    funext l f
    push_cast
    split_ifs <;> first
      | rfl
      | (exfalso; omega)

/-- The swap branch in closed form, for a layer span that is not reversed. -/
theorem reverseSwaps_eq (frameBegin frameEnd layerBegin layerEnd : Int)
    (h0 : 0 ≤ frameBegin) (h1 : frameBegin ≤ frameEnd) (hl : layerBegin ≤ layerEnd) :
    reverseSwaps frameBegin frameEnd layerBegin layerEnd =
      some (unroll (fun layerIdx _ =>
          unroll (fun frame frameRev => [Call.swapCel layerIdx frame frameRev]) 1 (-1)
            ((frameBegin + frameEnd) / 2 + 1 - frameBegin).toNat frameBegin frameEnd)
        1 0 (layerEnd - layerBegin).toNat layerBegin 0) := by
  unfold reverseSwaps
  refine Plan.run_eq_unroll _ _ _ (fun l _ => swapLoop_eq frameBegin frameEnd l h0 h1) _
    (by simp) ?_
  simp only []
  rw [Int.toNat_of_nonneg (by omega)]
  ring

/-- The swap branch ends only for a layer span that is not reversed. -/
theorem reverseSwaps_some (frameBegin frameEnd layerBegin layerEnd : Int)
    (calls : List Call)
    (h : reverseSwaps frameBegin frameEnd layerBegin layerEnd = some calls) :
    layerBegin ≤ layerEnd := by
  unfold reverseSwaps Plan.run at h
  obtain ⟨n, hn, _, _⟩ := forNe_passes _ _ _ _ _ _ _ _ h
  simp only [] at hn
  omega


/-- The swap loop of one layer walks `i` from `frameBegin` to `(frameBegin+frameEnd)/2`
inclusive and swaps the cel at `i` with the cel at the mirrored frame. -/
theorem swapLoop_eq_map (frameBegin frameEnd layerIdx : Int) (h0 : 0 ≤ frameBegin)
    (h1 : frameBegin ≤ frameEnd) :
    swapLoop frameBegin frameEnd layerIdx =
      some ((indexRange frameBegin ((frameBegin + frameEnd) / 2)).map
        (fun i => Call.swapCel layerIdx i (frameBegin + frameEnd - i))) := by
  rw [swapLoop_eq frameBegin frameEnd layerIdx h0 h1, unroll_single]
  unfold indexRange
  rw [List.map_map]
  congr 1
  apply List.map_congr_left
  intro j _
  simp only [Function.comp_apply]
  congr 1 <;> ring

theorem reverseSwaps_eq_flatMap (frameBegin frameEnd layerBegin layerEnd : Int)
    (h0 : 0 ≤ frameBegin) (h1 : frameBegin ≤ frameEnd) (hl : layerBegin ≤ layerEnd + 1) :
    reverseSwaps frameBegin frameEnd layerBegin (layerEnd + 1) =
      some ((indexRange layerBegin layerEnd).flatMap (fun layerIdx =>
        (indexRange frameBegin ((frameBegin + frameEnd) / 2)).map
          (fun i => Call.swapCel layerIdx i (frameBegin + frameEnd - i)))) := by
  unfold reverseSwaps
  rw [Plan.run_eq_unroll _ _
    (fun layerIdx _ => (indexRange frameBegin ((frameBegin + frameEnd) / 2)).map
      (fun i => Call.swapCel layerIdx i (frameBegin + frameEnd - i)))
    (fun l _ => swapLoop_eq_map frameBegin frameEnd l h0 h1)
    (layerEnd + 1 - layerBegin).toNat (by simp)
    (by simp only []; rw [Int.toNat_of_nonneg (by omega)]; ring)]
  rw [unroll_eq_flatMap]
  unfold indexRange
  rw [List.flatMap_map]
  congr 1
  apply List.flatMap_congr
  intro j _
  simp only [mul_one]

/-- The calls of `reverse_frames` for a range that is not of the kind Frames, whose
frame span is `frameBegin..frameEnd`. -/
theorem reverse_frames_swaps (doc : Document) (range : DocumentRange)
    (frameBegin frameEnd : Int)
    (hspan : (range.type = RangeType.kCels ∧ frameBegin = range.frameBegin ∧
        frameEnd = range.frameEnd) ∨
      (range.type = RangeType.kLayers ∧ frameBegin = 0 ∧
        frameEnd = doc.sprite.totalFrames - 1)) :
    reverse_frames doc range =
      match reverseSwaps frameBegin frameEnd range.layerBegin (range.layerEnd + 1) with
      | none => none
      | some calls => some (Call.begin "Reverse Frames" :: calls ++ [Call.commit]) := by
  rcases hspan with ⟨hk, rfl, rfl⟩ | ⟨hk, rfl, rfl⟩ <;>
    simp [reverse_frames, reverseSpan, hk]

/-- Whenever `reverse_frames` ends on a range that is not of the kind Frames, the cels
of the layer span are mirrored within the frame span and no other cel changes. -/
theorem reverse_frames_swaps_grid (doc : Document) {α : Type} (g : Grid α)
    (range : DocumentRange) (frameBegin frameEnd : Int)
    (hspan : (range.type = RangeType.kCels ∧ frameBegin = range.frameBegin ∧
        frameEnd = range.frameEnd) ∨
      (range.type = RangeType.kLayers ∧ frameBegin = 0 ∧
        frameEnd = doc.sprite.totalFrames - 1))
    (h0 : 0 ≤ frameBegin) (h1 : frameBegin ≤ frameEnd) (n : Nat) (calls : List Call)
    (hcalls : reverse_frames doc range = some calls) :
    runGrid calls n g =
      fun l f =>
        if (range.layerBegin ≤ l ∧ l ≤ range.layerEnd) ∧ (frameBegin ≤ f ∧ f ≤ frameEnd) then
          g l (frameBegin + frameEnd - f)
        else g l f := by
  rw [reverse_frames_swaps doc range frameBegin frameEnd hspan] at hcalls
  cases hsw : reverseSwaps frameBegin frameEnd range.layerBegin (range.layerEnd + 1) with
  | none =>
    rw [hsw] at hcalls
    cases hcalls
  | some swaps =>
    rw [hsw] at hcalls
    cases hcalls
    have hl := reverseSwaps_some _ _ _ _ _ hsw
    rw [reverseSwaps_eq frameBegin frameEnd _ _ h0 h1 hl] at hsw
    cases hsw
    rw [runGrid_transaction, runGrid_layers _ frameBegin frameEnd h1]
    have hcount : (((range.layerEnd + 1 - range.layerBegin).toNat : Nat) : Int) =
        range.layerEnd + 1 - range.layerBegin := Int.toNat_of_nonneg (by omega)
    funext l f
    simp only [hcount]
    split_ifs <;> first
      | rfl
      | (exfalso; omega)

/-- C15: reversal by swaps.  For a Cells-kind range with `0 <= frameBegin <= frameEnd`,
and for a Layers-kind range with the frame span `[0, totalFrames-1]` taken the same way:
the swap loop of a layer walks `i` from `frameBegin` to `(frameBegin+frameEnd)/2`
inclusive, swapping the cels at `i` and at `frameEnd-i+frameBegin`, and ends;
`reverse_frames` ends whenever the layer span is not reversed, making these swaps for
the layers `layerBegin..layerEnd` inside its transaction; and with `swapCel` exchanging
two cels of one layer, whenever `reverse_frames` ends the cel at `(l, f)`, for `l` in the
layer span and `f` in the frame span, is the original cel at
`(l, frameBegin + frameEnd - f)` and every other cel is unchanged. -/
theorem reverse_frames_by_swaps (doc : Document) {α : Type} (g : Grid α)
    (range : DocumentRange) (frameBegin frameEnd : Int)
    (hspan : (range.type = RangeType.kCels ∧ frameBegin = range.frameBegin ∧
        frameEnd = range.frameEnd) ∨
      (range.type = RangeType.kLayers ∧ frameBegin = 0 ∧
        frameEnd = doc.sprite.totalFrames - 1))
    (h0 : 0 ≤ frameBegin) (h1 : frameBegin ≤ frameEnd) :
    (∀ layerIdx, swapLoop frameBegin frameEnd layerIdx =
        some ((indexRange frameBegin ((frameBegin + frameEnd) / 2)).map
          (fun i => Call.swapCel layerIdx i (frameEnd - i + frameBegin)))) ∧
      (range.layerBegin ≤ range.layerEnd + 1 →
        reverse_frames doc range =
          some (Call.begin "Reverse Frames" ::
            (indexRange range.layerBegin range.layerEnd).flatMap (fun layerIdx =>
              (indexRange frameBegin ((frameBegin + frameEnd) / 2)).map
                (fun i => Call.swapCel layerIdx i (frameEnd - i + frameBegin))) ++
            [Call.commit])) ∧
      (∀ calls, reverse_frames doc range = some calls → ∀ l f,
        runGrid calls doc.sprite.totalFrames.toNat g l f =
          if (range.layerBegin ≤ l ∧ l ≤ range.layerEnd) ∧ (frameBegin ≤ f ∧ f ≤ frameEnd) then
            g l (frameBegin + frameEnd - f)
          else g l f) := by
  have hmirror : ∀ i : Int, frameEnd - i + frameBegin = frameBegin + frameEnd - i := by
    intro i; ring
  simp only [hmirror]
  refine ⟨fun l => swapLoop_eq_map frameBegin frameEnd l h0 h1, ?_, ?_⟩
  · intro hl
    rw [reverse_frames_swaps doc range frameBegin frameEnd hspan,
      reverseSwaps_eq_flatMap frameBegin frameEnd _ _ h0 h1 hl]
  · intro calls hcalls l f
    rw [reverse_frames_swaps_grid doc g range frameBegin frameEnd hspan h0 h1 _ calls hcalls]

/-- C15 at the cels of layers 1..2, frames 0..3: two swaps in each layer, `(0, 3)` and
`(1, 2)`. -/
theorem reverse_frames_by_swaps_witness :
    reverse_frames sampleDoc (Cels 1 2 0 3) =
        some [Call.begin "Reverse Frames", Call.swapCel 1 0 3, Call.swapCel 1 1 2,
          Call.swapCel 2 0 3, Call.swapCel 2 1 2, Call.commit] ∧
      runGrid [Call.begin "Reverse Frames", Call.swapCel 1 0 3, Call.swapCel 1 1 2,
          Call.swapCel 2 0 3, Call.swapCel 2 1 2, Call.commit] 5
          (fun (l f : Int) => (l, f)) 2 1 = (2, 2) :=
  have h := reverse_frames_by_swaps sampleDoc (fun (l f : Int) => (l, f)) (Cels 1 2 0 3) 0 3
    (Or.inl ⟨rfl, rfl, rfl⟩) (by decide) (by decide)
  ⟨(h.2.1 (by decide)).trans (by decide),
    (h.2.2 _ ((h.2.1 (by decide)).trans (by decide)) 2 1).trans (by decide)⟩


/-! ## Reversing twice -/

theorem moveFrame_length {α : Type} (frames : List α) (s d : Int) :
    (moveFrame frames s d).length = frames.length := by
  unfold moveFrame
  split
  · next hc =>
    have hs : s.toNat < frames.length := by omega
    rw [List.getElem?_eq_getElem hs]
    simp only [List.length_append, List.length_cons, List.length_take, List.length_drop]
    split <;> omega
  · rfl

theorem Grid.columns_length {α : Type} (g : Grid α) (n : Nat) : (g.columns n).length = n := by
  unfold Grid.columns
  rw [List.length_map, List.length_range]

theorem Grid.columns_withColumns {α : Type} (g : Grid α) (columns : List (Int → α)) :
    (g.withColumns columns).columns columns.length = columns := by
  apply List.ext_getElem?
  intro i
  unfold Grid.columns
  rw [List.getElem?_map]
  by_cases hi : i < columns.length
  · rw [List.getElem?_range hi, List.getElem?_eq_getElem hi]
    simp only [Option.map_some', Option.some.injEq]
    funext l
    unfold Grid.withColumns
    rw [if_neg (by omega)]
    have : ((i : Int)).toNat = i := by omega
    rw [this, List.getElem?_eq_getElem hi]
  · rw [List.getElem?_eq_none (by rw [List.length_range]; omega),
      List.getElem?_eq_none (by omega)]
    rfl

theorem Grid.withColumns_withColumns {α : Type} (g : Grid α) (c1 c2 : List (Int → α))
    (h : c1.length = c2.length) :
    (g.withColumns c1).withColumns c2 = g.withColumns c2 := by
  funext l f
  unfold Grid.withColumns
  by_cases hf : f < 0
  · simp only [if_pos hf]
  · simp only [if_neg hf]
    by_cases hi : f.toNat < c2.length
    · rw [List.getElem?_eq_getElem hi]
    · rw [List.getElem?_eq_none (by omega), List.getElem?_eq_none (by omega)]

theorem Grid.withColumns_columns {α : Type} (g : Grid α) (n : Nat) :
    g.withColumns (g.columns n) = g := by
  funext l f
  unfold Grid.withColumns Grid.columns
  by_cases hf : f < 0
  · simp only [if_pos hf]
  · simp only [if_neg hf]
    rw [List.getElem?_map]
    by_cases hi : f.toNat < n
    · rw [List.getElem?_range hi]
      simp only [Option.map_some']
      congr 1
      omega
    · rw [List.getElem?_eq_none (by rw [List.length_range]; omega)]
      rfl

theorem runFrames_reverseMoves_length {α : Type} (frames : List α) :
    ∀ (count : Nat) (fb fe : Int), (fe + 1 - fb).toNat = count →
      (runFrames (reverseMoves fb fe) frames).length = frames.length := by
  intro count
  induction count generalizing frames with
  | zero =>
    intro fb fe h
    rw [reverseMoves_empty _ _ (by omega)]
    rfl
  | succ count ih =>
    intro fb fe h
    rw [reverseMoves_step _ _ (by omega), runFrames_cons]
    show (runFrames (reverseMoves fb (fe - 1)) (moveFrame frames fb (fe + 1))).length = _
    rw [ih _ fb (fe - 1) (by omega), moveFrame_length]

/-- On the grid, the moves of `reverse_frames` act as they act on the sequence of the
columns of the grid. -/
theorem runGrid_reverseMoves {α : Type} (n : Nat) :
    ∀ (count : Nat) (fb fe : Int) (g : Grid α), (fe + 1 - fb).toNat = count →
      runGrid (reverseMoves fb fe) n g =
        g.withColumns (runFrames (reverseMoves fb fe) (g.columns n)) := by
  intro count
  induction count with
  | zero =>
    intro fb fe g h
    rw [reverseMoves_empty _ _ (by omega)]
    exact (g.withColumns_columns n).symm
  | succ count ih =>
    intro fb fe g h
    rw [reverseMoves_step _ _ (by omega), runGrid_cons, runFrames_cons]
    show runGrid (reverseMoves fb (fe - 1)) n (g.moveFrame n fb (fe + 1)) =
      g.withColumns (runFrames (reverseMoves fb (fe - 1)) (moveFrame (g.columns n) fb (fe + 1)))
    have hlen : (moveFrame (g.columns n) fb (fe + 1)).length = n := by
      rw [moveFrame_length, Grid.columns_length]
    rw [ih fb (fe - 1) _ (by omega)]
    unfold Grid.moveFrame
    have hcols : (g.withColumns (moveFrame (g.columns n) fb (fe + 1))).columns n =
        moveFrame (g.columns n) fb (fe + 1) := by
      have := Grid.columns_withColumns g (moveFrame (g.columns n) fb (fe + 1))
      rw [hlen] at this
      exact this
    rw [hcols, Grid.withColumns_withColumns]
    rw [runFrames_reverseMoves_length _ count fb (fe - 1) (by omega)]

/-- Reversing a block of a sequence by moves twice gives the sequence back. -/
theorem run_reverse_moves_twice {α : Type} (frames : List α) (fb fe : Int)
    (h0 : 0 ≤ fb) (h1 : fb ≤ fe) (h2 : fe < frames.length) :
    runFrames (reverseMoves fb fe) (runFrames (reverseMoves fb fe) frames) = frames := by
  have hd := slice_four frames fb (fe + 1) (fe + 1) h0 (by omega) (le_refl _) (by omega)
  rw [add_sub_cancel_right] at hd
  have hA := slice_length frames 0 (fb - 1) (le_refl _) (by omega) (by omega)
  have hS := slice_length frames fb fe h0 (by omega) (by omega)
  have hM : slice frames (fe + 1) fe = [] := by
    unfold slice
    have : (fe + 1 - (fe + 1)).toNat = 0 := by omega
    rw [this]
    rfl
  rw [hM, List.append_nil] at hd
  generalize slice frames 0 (fb - 1) = A at hd hA
  generalize slice frames fb fe = S at hd hS
  generalize slice frames (fe + 1) ((frames.length : Int) - 1) = T at hd
  rw [hd, run_reverse_moves S A T fb fe (by omega) (by omega),
    run_reverse_moves S.reverse A T fb fe (by omega) (by rw [List.length_reverse]; omega),
    List.reverse_reverse]


theorem reverse_frames_swaps_twice (doc : Document) {α : Type} (g : Grid α)
    (range : DocumentRange) (frameBegin frameEnd : Int)
    (hspan : (range.type = RangeType.kCels ∧ frameBegin = range.frameBegin ∧
        frameEnd = range.frameEnd) ∨
      (range.type = RangeType.kLayers ∧ frameBegin = 0 ∧
        frameEnd = doc.sprite.totalFrames - 1))
    (h0 : 0 ≤ frameBegin) (h1 : frameBegin ≤ frameEnd)
    (hl : range.layerBegin ≤ range.layerEnd) (n : Nat) :
    ∃ calls, reverse_frames doc range = some calls ∧
      runGrid calls n (runGrid calls n g) = g := by
  have hrf := reverse_frames_swaps doc range frameBegin frameEnd hspan
  rw [reverseSwaps_eq_flatMap frameBegin frameEnd _ _ h0 h1 (by omega)] at hrf
  refine ⟨_, hrf, ?_⟩
  rw [reverse_frames_swaps_grid doc _ range frameBegin frameEnd hspan h0 h1 n _ hrf,
    reverse_frames_swaps_grid doc g range frameBegin frameEnd hspan h0 h1 n _ hrf]
  funext l f
  simp only []
  split_ifs <;> first
    | rfl
    | (exfalso; omega)
    | (congr 1; omega)

/-- C14: round trip of the reversal.  For a range of any kind lying inside the grid,
`reverse_frames` ends, and running its calls twice leaves every cel of the grid equal to
its original content; `swapCel` exchanges the cels at two frames of one layer and
`moveFrame(s, d)` removes frame `s` of the sprite and reinserts it before the frame that
was at index `d`. -/
theorem reverse_frames_twice (doc : Document) {α : Type} (g : Grid α)
    (range : DocumentRange) (hinside : range.insideGrid doc.sprite) :
    ∃ calls, reverse_frames doc range = some calls ∧
      runGrid calls doc.sprite.totalFrames.toNat
        (runGrid calls doc.sprite.totalFrames.toNat g) = g := by
  unfold DocumentRange.insideGrid at hinside
  cases hk : range.type with
  | kCels =>
    rw [hk] at hinside
    simp only [] at hinside
    exact reverse_frames_swaps_twice doc g range range.frameBegin range.frameEnd
      (Or.inl ⟨hk, rfl, rfl⟩) hinside.2.1 hinside.2.2.1 hinside.1.2.1 _
  | kLayers =>
    rw [hk] at hinside
    simp only [] at hinside
    exact reverse_frames_swaps_twice doc g range 0 (doc.sprite.totalFrames - 1)
      (Or.inr ⟨hk, rfl, rfl⟩) (le_refl _) (by omega) hinside.1.2.1 _
  | kFrames =>
    rw [hk] at hinside
    simp only [] at hinside
    obtain ⟨h0, h1, h2⟩ := hinside
    have htrace : reverse_frames doc range =
        some (Call.begin "Reverse Frames" ::
          reverseMoves range.frameBegin range.frameEnd ++ [Call.commit]) := by
      simp [reverse_frames, reverseSpan, hk]
    refine ⟨_, htrace, ?_⟩
    have hlen : ∀ c : List (Int → α), c.length = doc.sprite.totalFrames.toNat →
        (runFrames (reverseMoves range.frameBegin range.frameEnd) c).length =
          doc.sprite.totalFrames.toNat := by
      intro c hc
      rw [runFrames_reverseMoves_length c _ _ _ rfl, hc]
    have hcols := Grid.columns_withColumns g
      (runFrames (reverseMoves range.frameBegin range.frameEnd)
        (g.columns doc.sprite.totalFrames.toNat))
    rw [hlen _ (g.columns_length _)] at hcols
    rw [runGrid_transaction, runGrid_transaction,
      runGrid_reverseMoves _ _ _ _ g rfl, runGrid_reverseMoves _ _ _ _ _ rfl, hcols,
      Grid.withColumns_withColumns _ _ _ (by rw [hlen _ (hlen _ (g.columns_length _)),
        hlen _ (g.columns_length _)]),
      run_reverse_moves_twice _ _ _ h0 h1 (by rw [Grid.columns_length]; omega),
      Grid.withColumns_columns]

/-- C14 at the range Frames[1,3] of the sample document, on the grid whose cel at
`(l, f)` is the pair `(l, f)`; and the calls of the reversal of the cels of layers 1..2,
frames 0..3, which the round trip runs twice. -/
theorem reverse_frames_twice_witness :
    (∃ calls, reverse_frames sampleDoc (Frames 1 3) = some calls ∧
        runGrid calls 5 (runGrid calls 5 (fun (l f : Int) => (l, f))) =
          (fun (l f : Int) => (l, f))) ∧
      (∃ calls, reverse_frames sampleDoc (Cels 1 2 0 3) = some calls ∧
        runGrid calls 5 (runGrid calls 5 (fun (l f : Int) => (l, f))) =
          (fun (l f : Int) => (l, f))) :=
  ⟨reverse_frames_twice sampleDoc (fun (l f : Int) => (l, f)) (Frames 1 3) (by decide),
    reverse_frames_twice sampleDoc (fun (l f : Int) => (l, f)) (Cels 1 2 0 3) (by decide)⟩

/-! ## Copying a Cells range onto itself -/

/-- C21: copying a Cells-kind range `R` onto itself, with either placement, returns `R`
and makes no call at all (no transaction, no `copyCel`), exactly as the move does; the
no-op test of the Cells case gives the same answer for both operations, whatever the
destination. -/
theorem copy_range_cels_onto_itself (k : RangeDecls) (doc : Document) (R : DocumentRange)
    (place : DocumentRangePlace) (hR : R.type = RangeType.kCels) :
    copy_range k doc R R place = ⟨[], Result.returned R⟩ ∧
      copy_range k doc R R place = move_range k doc R R place ∧
      ∀ (op1 op2 : Op) (toR : DocumentRange),
        checkRange doc.sprite op1 R place toR = checkRange doc.sprite op2 R place toR := by
  have hself : ∀ op : Op, checkRange doc.sprite op R place R = some (Result.returned R) := by
    intro op
    rw [checkRange_cels _ _ _ _ _ hR, if_pos ((DocumentRange.equals_iff R R).mpr rfl)]
  refine ⟨?_, ?_, ?_⟩
  · simp only [copy_range, drop_range_op, hself]
  · simp only [copy_range, move_range, drop_range_op, hself]
  · intro op1 op2 toR
    rw [checkRange_cels _ _ _ _ _ hR, checkRange_cels _ _ _ _ _ hR]

/-- C21 at the Cells range of layers 1..2, frames 0..4, placement Before. -/
theorem copy_range_cels_onto_itself_witness :
    copy_range sampleDecls sampleDoc (Cels 1 2 0 4) (Cels 1 2 0 4)
        DocumentRangePlace.kDocumentRangeBefore = ⟨[], Result.returned (Cels 1 2 0 4)⟩ :=
  (copy_range_cels_onto_itself sampleDecls sampleDoc (Cels 1 2 0 4)
    DocumentRangePlace.kDocumentRangeBefore rfl).1

end app
